import Mathlib

/-!
Verification of the cart-retention MECE segmentation core.

This file gives a shallow embedding, in Lean 4, of the segmentation pipeline
implemented in `src/segmentation_engine.py`, `src/segment_optimizer.py`,
`src/segment_scorer.py` and `src/segment_and_score_clean.py`, and proves or
refutes the specified properties of that pipeline.

Modelling conventions:
* Python strings (segment keys) are modelled as `List Char`, so that the
  source's `split("_")`, `startswith` and string concatenation admit proofs.
  The helper functions `splitU`, `keyStartsWith`, `keyLe` implement exactly
  Python's `str.split("_")`, `str.startswith(p)` and `<` on strings.
* User identifiers are opaque: the source only ever compares them for
  equality and groups by them, so they are modelled as `ℕ`.
* Python floats are modelled as `ℚ` (the pipeline's arithmetic is plain
  field arithmetic; no rounding, overflow or NaN behaviour is relied on by
  any claim; where numpy would produce NaN on an empty list the embedding
  returns 0 and the spot is marked in a comment).
* A pandas DataFrame indexed by `user_id` (`universe_df.set_index`) is
  modelled as a lookup function `UserId → Record`; `lookupU` builds the
  lookup from a record list, returning an all-zero record for an id that is
  absent (the pipeline never looks up an absent id).
* Python dicts keyed by segment name are association lists
  (`List (Key × SegmentData)`); `dictFind`, `dictErase`, `dictSet` implement
  lookup, `pop` and `d[k] = v` (overwrite in place, append if fresh).
-/

/-- Segment keys: Python strings as lists of characters. -/
abbrev Key := List Char

/-- Opaque user identifier (the source only compares ids for equality). -/
abbrev UserId := ℕ

/-- Python's `s.split("_")` on a string modelled as `List Char`. -/
def splitU : List Char → List (List Char)
  | [] => [[]]
  | c :: rest =>
    if c = '_' then [] :: splitU rest
    else
      match splitU rest with
      | p :: ps => (c :: p) :: ps
      | [] => [[c]]

/-- Inverse of `splitU`: re-interleave the parts with `'_'`. -/
def joinU : List (List Char) → List Char
  | [] => []
  | [p] => p
  | p :: ps => p ++ '_' :: joinU ps

/-- Python's `s.startswith(p)` for strings modelled as lists of characters. -/
def keyStartsWith : Key → Key → Bool
  | _, [] => true
  | [], _ :: _ => false
  | c :: cs, d :: ds => c = d && keyStartsWith cs ds

/-- Python's `<=` on strings: lexicographic comparison by code point. -/
def keyLe : Key → Key → Bool
  | [], _ => true
  | _ :: _, [] => false
  | a :: as, b :: bs => if a = b then keyLe as bs else decide (a < b)

/-- Insert into a `keyLe`-sorted list of keys. -/
def insertKey (a : Key) : List Key → List Key
  | [] => [a]
  | b :: bs => if keyLe a b then a :: b :: bs else b :: insertKey a bs

/-- Python's `sorted` on a list of strings (insertion sort; `sorted` is a
stable sort, and the key lists sorted here are duplicate-free, so any
comparison sort produces the same list). -/
def sortKeys : List Key → List Key
  | [] => []
  | a :: as => insertKey a (sortKeys as)

/-- One input row of the universe DataFrame (see §3 of the spec and
`DataValidator.REQUIRED_COLUMNS`); `days_since_abandon` is the derived
integer column added by `SegmentationEngine.compute_universe`. -/
structure Record where
  user_id : UserId
  avg_order_value : ℚ
  sessions_last_30d : ℚ
  engagement_score : ℚ
  profitability_score : ℚ
  days_since_abandon : ℤ
deriving Repr, DecidableEq

/-- All-zero record, returned by `lookupU` for an absent id. -/
def defaultRecord : Record :=
  { user_id := 0, avg_order_value := 0, sessions_last_30d := 0,
    engagement_score := 0, profitability_score := 0, days_since_abandon := 0 }

instance : Inhabited Record := ⟨defaultRecord⟩

/-- `universe_df.set_index("user_id")` as a lookup function. -/
def lookupU (univ : List Record) (u : UserId) : Record :=
  (univ.find? (fun r => r.user_id = u)).getD defaultRecord

/-- `((7.0 - universe["days_since_abandon"]) / 7.0).clip(lower=0.0)`
(from `SegmentationEngine.compute_conversion_scores`). -/
def Record.recency_factor (r : Record) : ℚ :=
  max 0 ((7 - (r.days_since_abandon : ℚ)) / 7)

/-- `universe["engagement_score"] * universe["recency_factor"]`
(from `SegmentationEngine.compute_conversion_scores`). -/
def Record.conversion_potential (r : Record) : ℚ :=
  r.engagement_score * r.recency_factor

/-- `nthQ l i` is `l[i]` with default `0` (numpy indexing; the embedding
only ever indexes in range). -/
def nthQ : List ℚ → ℕ → ℚ
  | [], _ => 0
  | a :: _, 0 => a
  | _ :: t, i+1 => nthQ t i

/-- Insert into a `≤`-sorted list of rationals. -/
def insertQ (a : ℚ) : List ℚ → List ℚ
  | [] => [a]
  | b :: bs => if a ≤ b then a :: b :: bs else b :: insertQ a bs

/-- Ascending sort of a list of rationals (numpy sorts before
interpolating a quantile). -/
def sortQ : List ℚ → List ℚ
  | [] => []
  | a :: as => insertQ a (sortQ as)

/-- `np.quantile(xs, qn/qd)` with numpy's default linear interpolation:
`pos = (n-1)·qn/qd`, `i = ⌊pos⌋`, result `s[i] + (pos-i)·(s[i+1]-s[i])`.
The floor and fractional part of `pos` are computed exactly with natural
division since `qn/qd ≥ 0`.  On an empty list numpy returns NaN; the
embedding returns 0 (the pipeline guarantees a non-empty universe). -/
def np_quantile (xs : List ℚ) (qn qd : ℕ) : ℚ :=
  let s := sortQ xs
  let n := s.length
  let i := (n - 1) * qn / qd
  let frac : ℚ := (((n - 1) * qn % qd : ℕ) : ℚ) / (qd : ℚ)
  if i + 1 < n then nthQ s i + frac * (nthQ s (i+1) - nthQ s i) else nthQ s i

/-- `np.percentile(xs, p)` = `np.quantile(xs, p/100)`. -/
def np_percentile (xs : List ℚ) (p : ℕ) : ℚ :=
  np_quantile xs p 100

/-- The five threshold cut points (`SegmentationEngine.compute_percentiles`). -/
structure Percentiles where
  AOV_p20 : ℚ
  AOV_p50 : ℚ
  AOV_p80 : ℚ
  eng_p50 : ℚ
  prof_p50 : ℚ
deriving Repr, DecidableEq

/-- `SegmentationEngine.compute_percentiles`. -/
def compute_percentiles (univ : List Record) : Percentiles :=
  { AOV_p20 := np_percentile (univ.map (fun r => r.avg_order_value)) 20
    AOV_p50 := np_percentile (univ.map (fun r => r.avg_order_value)) 50
    AOV_p80 := np_percentile (univ.map (fun r => r.avg_order_value)) 80
    eng_p50 := np_percentile (univ.map (fun r => r.engagement_score)) 50
    prof_p50 := np_percentile (univ.map (fun r => r.profitability_score)) 50 }

/-- The inner `aov_bin` of `SegmentationEngine.assign_decision_tree_bins`. -/
def aov_bin (p : Percentiles) (value : ℚ) : Key :=
  if value ≤ p.AOV_p20 then "LowAOV".toList
  else if p.AOV_p80 < value then "HighAOV".toList
  else "MidAOV".toList

/-- `np.where(universe["engagement_score"] > eng_p50, "HighEng", "LowEng")`. -/
def eng_bin (p : Percentiles) (value : ℚ) : Key :=
  if p.eng_p50 < value then "HighEng".toList else "LowEng".toList

/-- `np.where(universe["profitability_score"] > prof_p50, "HighProf", "LowProf")`. -/
def prof_bin (p : Percentiles) (value : ℚ) : Key :=
  if p.prof_p50 < value then "HighProf".toList else "LowProf".toList

/-- `universe["leaf_segment"] = AOV_bin + "_" + Eng_bin + "_" + Prof_bin`. -/
def leaf_segment (p : Percentiles) (r : Record) : Key :=
  aov_bin p r.avg_order_value ++ ('_' :: (eng_bin p r.engagement_score
    ++ ('_' :: prof_bin p r.profitability_score)))

/-- One value of the segment dictionary (`aggregate_segments` builds these;
merges and splits rebuild them). -/
structure SegmentData where
  users : List UserId
  size : ℕ
  conversion_potential : ℚ
  profitability : ℚ
  avg_order_value : ℚ
deriving Repr, DecidableEq

/-- The segment dictionary: insertion-ordered map from key to data. -/
abbrev SegDict := List (Key × SegmentData)

/-- Dictionary lookup (`segments[k]` / `k in segments`). -/
def dictFind (segs : SegDict) (k : Key) : Option SegmentData :=
  (segs.find? (fun p => p.1 = k)).map (fun p => p.2)

/-- `segments.pop(k, None)`. -/
def dictErase (segs : SegDict) (k : Key) : SegDict :=
  segs.filter (fun p => ¬ p.1 = k)

/-- `segments[k] = v`: overwrite in place if present, append if fresh. -/
def dictSet (segs : SegDict) (k : Key) (v : SegmentData) : SegDict :=
  if (dictFind segs k).isSome then
    segs.map (fun p => if p.1 = k then (k, v) else p)
  else segs ++ [(k, v)]

/-- Mean of a list of rationals (`pandas.Series.mean`); 0 on the empty list
(the source always guards the empty case explicitly). -/
def meanQ (l : List ℚ) : ℚ := l.sum / (l.length : ℚ)

/-- The aggregate built for one groupby group in
`SegmentationEngine.aggregate_segments`. -/
def mkAggregate (group : List Record) : SegmentData :=
  { users := group.map (fun r => r.user_id)
    size := group.length
    conversion_potential :=
      if 0 < group.length then meanQ (group.map Record.conversion_potential) else 0
    profitability :=
      if 0 < group.length then meanQ (group.map (fun r => r.profitability_score)) else 0
    avg_order_value :=
      if 0 < group.length then meanQ (group.map (fun r => r.avg_order_value)) else 0 }

/-- The all-empty aggregate inserted for a missing tier combination. -/
def emptyAggregate : SegmentData :=
  { users := [], size := 0, conversion_potential := 0, profitability := 0,
    avg_order_value := 0 }

/-- The 12 enumerable leaf keys, in the enumeration order of the source's
triple loop (`aov_bins × eng_bins × prof_bins`). -/
def all_leaf_keys : List Key :=
  (["HighAOV", "MidAOV", "LowAOV"].map String.toList).flatMap (fun a =>
    (["HighEng", "LowEng"].map String.toList).flatMap (fun e =>
      (["HighProf", "LowProf"].map String.toList).map (fun pr =>
        a ++ ('_' :: (e ++ ('_' :: pr))))))

/-- `SegmentationEngine.aggregate_segments`: group the universe by
`leaf_segment` (pandas `groupby` iterates groups in sorted key order), then
insert an empty aggregate for each of the 12 combinations not present. -/
def aggregate_segments (p : Percentiles) (univ : List Record) : SegDict :=
  let present := (sortKeys (univ.map (leaf_segment p))).dedup
  present.map (fun k => (k, mkAggregate (univ.filter (fun r => leaf_segment p r = k))))
    ++ (all_leaf_keys.filter (fun k => ¬ k ∈ present)).map
        (fun k => (k, emptyAggregate))

/-- The global sink key `Other_ELSE_ELSE`. -/
def sinkKey : Key := "Other_ELSE_ELSE".toList

/-- One entry of the merge log (`merge_log.append({...})` in
`SegmentOptimizer.merge_small_segments`). -/
structure LogEntry where
  action : String
  from_keys : List Key
  from_counts : List (Key × ℕ)
  to_key : Key
  to_count : ℕ
deriving Repr, DecidableEq

/-- The source-collection loop of `SegmentOptimizer._merge_segments`:
walk the source keys in order and, for each one still present, append its
users to the accumulator and pop it unless it is the destination. -/
def mergeCollect (destination_key : Key) :
    List Key → SegDict × List UserId → SegDict × List UserId
  | [], st => st
  | k :: ks, st =>
    match dictFind st.1 k with
    | none => mergeCollect destination_key ks st
    | some d =>
      mergeCollect destination_key ks
        (if k = destination_key then st.1 else dictErase st.1 k,
         st.2 ++ d.users)

/-- `SegmentOptimizer._merge_segments`: collect the users of the source
keys in order, popping each source other than the destination as it is
processed, then assign the destination entry (overwriting any existing
destination entry — its previous users are NOT retained). -/
def merge_segments (segs : SegDict) (destination_key : Key)
    (source_keys : List Key) : SegDict :=
  let st := mergeCollect destination_key source_keys (segs, [])
  dictSet st.1 destination_key
    { users := st.2, size := st.2.length, conversion_potential := 0,
      profitability := 0, avg_order_value := 0 }

/-- The per-entry update of `SegmentOptimizer._recompute_stats`: an empty
segment gets zeroed stats, a non-empty one gets its member count and the
means of its members' conversion potential, profitability and AOV. -/
def recompOne (lookup : UserId → Record) (p : Key × SegmentData) :
    Key × SegmentData :=
  if p.2.users = [] then
    (p.1, { users := p.2.users, size := 0, conversion_potential := 0,
            profitability := 0, avg_order_value := 0 })
  else
    (p.1, { users := p.2.users, size := p.2.users.length
            conversion_potential :=
              meanQ (p.2.users.map (fun u => (lookup u).conversion_potential))
            profitability :=
              meanQ (p.2.users.map (fun u => (lookup u).profitability_score))
            avg_order_value :=
              meanQ (p.2.users.map (fun u => (lookup u).avg_order_value)) })

/-- `SegmentOptimizer._recompute_stats` over the indexed universe. -/
def recompute_stats (lookup : UserId → Record) (segs : SegDict) : SegDict :=
  segs.map (recompOne lookup)

/-- The sorted list of undersized keys (step 1 of the fixed-point loop):
`[k for k, v in segments.items() if v["size"] < min_size and k != "Other_ELSE_ELSE"]`,
then `sorted(...)`. -/
def smallKeys (min_size : ℕ) (segs : SegDict) : List Key :=
  sortKeys ((segs.filter
    (fun p => p.2.size < min_size && ¬ p.1 = sinkKey)).map (fun p => p.1))

/-- The merge move performed for the first undersized key `k` whose split
has at least three parts (the body of the `for segment_key in
sorted(small_segments)` loop; the loop breaks after one merge). -/
def mergeMove (segs : SegDict) (k : Key) : SegDict × LogEntry :=
  match splitU k with
  | aov_part :: eng_part :: prof_part :: _ =>
    if prof_part = "HighProf".toList ∨ prof_part = "LowProf".toList then
      -- merge with the profitability sibling into "{aov}_{eng}_ELSE"
      let sibling_prof : Key :=
        if prof_part = "HighProf".toList then "LowProf".toList else "HighProf".toList
      let sibling_key : Key := aov_part ++ ('_' :: (eng_part ++ ('_' :: sibling_prof)))
      let parent_key : Key := aov_part ++ ('_' :: (eng_part ++ ('_' :: "ELSE".toList)))
      let sources := [k, sibling_key].filter (fun s => (dictFind segs s).isSome)
      let segs' := merge_segments segs parent_key sources
      (segs',
        { action := "merge_profit_sibling", from_keys := sources,
          from_counts := sources.map (fun s => (s, ((dictFind segs s).getD emptyAggregate).size)),
          to_key := parent_key,
          to_count := ((dictFind segs' parent_key).getD emptyAggregate).size })
    else if prof_part = "ELSE".toList ∧ ¬ eng_part = "ELSE".toList then
      -- merge every key of this AOV family into "{aov}_ELSE_ELSE"
      let parent_key : Key := aov_part ++ ('_' :: ("ELSE".toList ++ ('_' :: "ELSE".toList)))
      let sources := (segs.map (fun p => p.1)).filter
        (fun s => keyStartsWith s (aov_part ++ ['_']))
      let segs' := merge_segments segs parent_key sources
      (segs',
        { action := "merge_to_aov_parent", from_keys := sources,
          from_counts := sources.map (fun s => (s, ((dictFind segs s).getD emptyAggregate).size)),
          to_key := parent_key,
          to_count := ((dictFind segs' parent_key).getD emptyAggregate).size })
    else if eng_part = "ELSE".toList ∧ ¬ aov_part = "Other".toList then
      -- merge every key of this AOV family into the global sink
      let sources := (segs.map (fun p => p.1)).filter
        (fun s => keyStartsWith s (aov_part ++ ['_']))
      let segs' := merge_segments segs sinkKey sources
      (segs',
        { action := "merge_to_global_other", from_keys := sources,
          from_counts := sources.map (fun s => (s, ((dictFind segs s).getD emptyAggregate).size)),
          to_key := sinkKey,
          to_count := ((dictFind segs' sinkKey).getD emptyAggregate).size })
    else
      -- fallback: merge the key alone into the global sink
      let sources := [k]
      let segs' := merge_segments segs sinkKey sources
      (segs',
        { action := "merge_fallback_to_global", from_keys := sources,
          from_counts := sources.map (fun s => (s, ((dictFind segs s).getD emptyAggregate).size)),
          to_key := sinkKey,
          to_count := ((dictFind segs' sinkKey).getD emptyAggregate).size })
  | _ =>
    -- unreachable: the trigger key is chosen with at least three parts
    (segs, { action := "", from_keys := [], from_counts := [], to_key := [],
             to_count := 0 })

/-- One iteration of the `while True` loop of
`SegmentOptimizer.merge_small_segments`: `none` when the loop exits (no
undersized key, or every undersized key is skipped by the `len(parts) < 3`
guard, so `merged_any` stays false); otherwise the merge move for the first
eligible undersized key, followed by `_recompute_stats`. -/
def mergeStep (lookup : UserId → Record) (min_size : ℕ) (segs : SegDict) :
    Option (SegDict × LogEntry) :=
  match (smallKeys min_size segs).find? (fun k => 3 ≤ (splitU k).length) with
  | none => none
  | some k =>
    let m := mergeMove segs k
    some (recompute_stats lookup m.1, m.2)

/-- The fixed-point loop, with explicit fuel (the source's `while True`
has none; `merge_small_segments` below supplies provably sufficient fuel,
and `mergeLoop_total` shows it never runs out). -/
def mergeLoop (lookup : UserId → Record) (min_size : ℕ) :
    ℕ → SegDict → List LogEntry → Option (SegDict × List LogEntry)
  | 0, _, _ => none
  | fuel+1, segs, log =>
    match mergeStep lookup min_size segs with
    | none => some (segs, log)
    | some (segs', e) => mergeLoop lookup min_size fuel segs' (log ++ [e])

/-- Termination measure: each key's height above the sink in the 3-level
merge hierarchy (leaf = 3, `_ELSE` profitability parent = 2, `_ELSE_ELSE`
AOV parent = 1, sink and unsplittable keys = 0). -/
def keyPot (k : Key) : ℕ :=
  if k = sinkKey then 0
  else match splitU k with
    | _ :: eng_part :: prof_part :: _ =>
      if prof_part = "HighProf".toList ∨ prof_part = "LowProf".toList then 3
      else if prof_part = "ELSE".toList then
        (if eng_part = "ELSE".toList then 1 else 2)
      else 3
    | _ => 0

/-- Total measure of a segment dictionary: every merge move strictly
decreases it. -/
def potSum (segs : SegDict) : ℕ := (segs.map (fun p => keyPot p.1)).sum

/-- `SegmentOptimizer.merge_small_segments`.  The fuel `potSum segs + 1`
is provably sufficient (theorem `merge_loop_terminates_c10`), so the
`getD` default is never taken. -/
def merge_small_segments (lookup : UserId → Record) (min_size : ℕ)
    (segs : SegDict) : SegDict × List LogEntry :=
  (mergeLoop lookup min_size (potSum segs + 1) segs []).getD (segs, [])

/-- Total size of a segment dictionary (the invariant of claim C1). -/
def totalSize (segs : SegDict) : ℕ := (segs.map (fun p => p.2.size)).sum

/-- Total member count of a segment dictionary. -/
def totalUsers (segs : SegDict) : ℕ := (segs.map (fun p => p.2.users.length)).sum

/-- `int(math.ceil(size / float(max_size)))` for positive `max_size`
(Python raises ZeroDivisionError when `max_size = 0`; the embedding returns
0 there, a spot never reached by the pipeline, whose `max_size` is 20000). -/
def ceilDiv (n m : ℕ) : ℕ := (n + m - 1) / m

/-- The bucket-selection loop of the quantile split path: index of the
first cut value at or above `sessions`, or the index one past the last cut
when `sessions` exceeds every cut. -/
def bucketIdx (cut_values : List ℚ) (sessions : ℚ) : ℕ :=
  match cut_values with
  | [] => 0
  | c :: cs => if sessions ≤ c then 0 else 1 + bucketIdx cs sessions

/-- One entry of the split log. -/
structure SplitEntry where
  action : String
  original : Key
  created : List Key
  counts : List ℕ
deriving Repr, DecidableEq

/-- Fresh sub-segment data created by a split. -/
def mkSplitData (user_list : List UserId) : SegmentData :=
  { users := user_list, size := user_list.length, conversion_potential := 0,
    profitability := 0, avg_order_value := 0 }

/-- Processing of a single segment by `SegmentOptimizer.split_large_segments`:
keep it if not oversized, otherwise split it.  `users[i:i+max_size] for i in
range(0, len(users), max_size)` is `ceil(len/max_size)` slices, the `i`-th
being `take max_size (drop (i·max_size) users)`.  In the quantile path the
source appends each user, in order, to `buckets[bucket_idx]`; bucket `bi` of
that loop is exactly the users whose `bucketIdx` is `bi`, in order. -/
def splitOne (lookup : UserId → Record) (max_size : ℕ) (k : Key)
    (d : SegmentData) : List (Key × SegmentData) × List SplitEntry :=
  if d.size ≤ max_size ∨ d.size = 0 then ([(k, d)], [])
  else
    let users := d.users
    let num_splits := ceilDiv d.size max_size
    let values := users.map (fun u => (lookup u).sessions_last_30d)
    if values.dedup.length ≤ 1 then
      let chunks := (List.range (ceilDiv users.length max_size)).map
        (fun i => (users.drop (i * max_size)).take max_size)
      let entries := chunks.enum.map (fun ie =>
        (k ++ "_SPLIT_".toList ++ (toString (ie.1 + 1)).toList, mkSplitData ie.2))
      (entries,
        [{ action := "split_by_index", original := k,
           created := entries.map (fun e => e.1),
           counts := entries.map (fun e => e.2.size) }])
    else
      let cut_values := (List.range (num_splits - 1)).map
        (fun i => np_quantile values (i + 1) num_splits)
      let buckets := (List.range num_splits).map (fun bi =>
        users.filter
          (fun u => bucketIdx cut_values (lookup u).sessions_last_30d = bi))
      let entries := buckets.enum.map (fun ie =>
        (k ++ "_SPLIT_Q".toList ++ (toString (ie.1 + 1)).toList, mkSplitData ie.2))
      (entries,
        [{ action := "split_by_sessions_quantile", original := k,
           created := entries.map (fun e => e.1),
           counts := entries.map (fun e => e.2.size) }])

/-- `SegmentOptimizer.split_large_segments`: process every segment, then
`_recompute_stats` over the whole new dictionary.  Created keys are always
fresh, so accumulating into the new dictionary is plain concatenation. -/
def split_large_segments (lookup : UserId → Record) (max_size : ℕ)
    (segs : SegDict) : SegDict × List SplitEntry :=
  let pieces := segs.map (fun p => splitOne lookup max_size p.1 p.2)
  (recompute_stats lookup (pieces.flatMap (fun pr => pr.1)),
   pieces.flatMap (fun pr => pr.2))

/-- `SegmentScorer._clamp01`. -/
def clamp01 (value : ℚ) : ℚ := max 0 (min 1 value)

/-- `SegmentScorer.WEIGHTS["conversion"]`. -/
def WEIGHTS_conversion : ℚ := 0.30

/-- `SegmentScorer.WEIGHTS["lift"]`. -/
def WEIGHTS_lift : ℚ := 0.25

/-- `SegmentScorer.WEIGHTS["profitability"]`. -/
def WEIGHTS_profitability : ℚ := 0.20

/-- `SegmentScorer.WEIGHTS["size"]`. -/
def WEIGHTS_size : ℚ := 0.10

/-- `SegmentScorer.WEIGHTS["strategic"]`. -/
def WEIGHTS_strategic : ℚ := 0.15

/-- Minimum of a non-empty list of rationals; 0 for the empty list (where
pandas `.min()` would give NaN; the pipeline's universe is non-empty). -/
def pyMinQ : List ℚ → ℚ
  | [] => 0
  | a :: t => t.foldl min a

/-- Maximum counterpart of `pyMinQ`. -/
def pyMaxQ : List ℚ → ℚ
  | [] => 0
  | a :: t => t.foldl max a

/-- `min(segment_sizes)` on a non-empty list of sizes. -/
def pyMinN : List ℕ → ℕ
  | [] => 0
  | a :: t => t.foldl min a

/-- `max(segment_sizes)` on a non-empty list of sizes. -/
def pyMaxN : List ℕ → ℕ
  | [] => 0
  | a :: t => t.foldl max a

/-- Insert into a list of dictionary entries sorted by key. -/
def insertPair (a : Key × SegmentData) :
    List (Key × SegmentData) → List (Key × SegmentData)
  | [] => [a]
  | b :: bs => if keyLe a.1 b.1 then a :: b :: bs else b :: insertPair a bs

/-- `sorted(segments.items())`: dictionary entries sorted by key (keys are
unique, so comparing the key component decides the Python tuple order). -/
def sortPairs : SegDict → List (Key × SegmentData)
  | [] => []
  | a :: as => insertPair a (sortPairs as)

/-- The scored row built for one segment (loop body of
`SegmentScorer.compute_final_scores`). -/
structure ScoredSegment where
  segment_name : Key
  size : ℕ
  conversion_potential : ℚ
  profitability : ℚ
  size_score : ℚ
  lift_vs_control : ℚ
  strategic_fit : ℚ
  overall_score : ℚ
deriving Repr, DecidableEq

/-- Score one segment given the universe AOV extremes and the extreme
segment sizes. -/
def scoreOne (aov_min aov_max : ℚ) (size_min size_max : ℕ)
    (p : Key × SegmentData) : Key × ScoredSegment :=
  let cp := if 0 < p.2.size then p.2.conversion_potential else 0
  let prof := if 0 < p.2.size then p.2.profitability else 0
  let aov_norm : ℚ :=
    if aov_min < aov_max ∧ 0 < p.2.size then
      (p.2.avg_order_value - aov_min) / (aov_max - aov_min)
    else 1/2
  let size_score : ℚ :=
    if ¬ size_max = size_min then
      ((p.2.size : ℚ) - (size_min : ℚ)) / ((size_max : ℚ) - (size_min : ℚ))
    else 1/2
  let lift_score := clamp01 (cp * 0.6 + prof * 0.4)
  let strategic_score := clamp01 (0.4 * prof + 0.6 * aov_norm)
  let overall := clamp01 (WEIGHTS_conversion * cp + WEIGHTS_lift * lift_score
    + WEIGHTS_profitability * prof + WEIGHTS_size * size_score
    + WEIGHTS_strategic * strategic_score)
  (p.1,
    { segment_name := p.1, size := p.2.size, conversion_potential := cp,
      profitability := prof, size_score := size_score,
      lift_vs_control := lift_score, strategic_fit := strategic_score,
      overall_score := overall })

/-- `SegmentScorer.compute_final_scores`. -/
def compute_final_scores (segs : SegDict) (univ : List Record) :
    List (Key × ScoredSegment) :=
  let aov_min := pyMinQ (univ.map (fun r => r.avg_order_value))
  let aov_max := pyMaxQ (univ.map (fun r => r.avg_order_value))
  let sizes := segs.map (fun p => p.2.size)
  let size_min := if sizes = [] then 0 else pyMinN sizes
  let size_max := if sizes = [] then 0 else pyMaxN sizes
  (sortPairs segs).map (scoreOne aov_min aov_max size_min size_max)

/-- `SegmentationEngine.determine_size_constraints`: the commented-out
adaptive sizing is dead code; the function returns the constants
`(500, 20000)` regardless of the universe size. -/
def determine_size_constraints (universe_size : ℕ) : ℕ × ℕ :=
  (500, 20000)

/-- The segment dictionary produced by the core pipeline of
`SegmentationAPI.run_segmentation` (aggregate, merge, optional split),
with the size bounds as parameters. -/
def pipeline_segments (univ : List Record) (min_size max_size : ℕ)
    (split_oversize : Bool) : SegDict :=
  let p := compute_percentiles univ
  let segs0 := aggregate_segments p univ
  let m := merge_small_segments (lookupU univ) min_size segs0
  if split_oversize then (split_large_segments (lookupU univ) max_size m.1).1
  else m.1

/-- The scored segment table produced by `SegmentationAPI.run_segmentation`
(the size bounds come from `determine_size_constraints`). -/
def run_segmentation_scored (univ : List Record) (split_oversize : Bool) :
    List (Key × ScoredSegment) :=
  let c := determine_size_constraints univ.length
  compute_final_scores (pipeline_segments univ c.1 c.2 split_oversize) univ

/-- Range hypothesis on one input record, as stated in §6 of the spec:
engagement and profitability in [0,1], days-since-abandon in [0,6]. -/
def RecOk (r : Record) : Prop :=
  0 ≤ r.engagement_score ∧ r.engagement_score ≤ 1 ∧
  0 ≤ r.profitability_score ∧ r.profitability_score ≤ 1 ∧
  0 ≤ r.days_since_abandon ∧ r.days_since_abandon ≤ 6

/-- Universe AOV minimum used by the scorer. -/
def aovMin (univ : List Record) : ℚ :=
  pyMinQ (univ.map (fun r => r.avg_order_value))

/-- Universe AOV maximum used by the scorer. -/
def aovMax (univ : List Record) : ℚ :=
  pyMaxQ (univ.map (fun r => r.avg_order_value))

/-- Every member id of every segment occurs in the universe. -/
def UsersOk (univ : List Record) (segs : SegDict) : Prop :=
  ∀ q ∈ segs, ∀ u ∈ q.2.users, ∃ r ∈ univ, r.user_id = u

/-- Stats invariant maintained between pipeline stages: stored conversion
potential and profitability lie in [0,1], and a non-empty segment's stored
mean AOV lies between the universe extremes. -/
def GoodSegs (univ : List Record) (segs : SegDict) : Prop :=
  ∀ q ∈ segs,
    (0 ≤ q.2.conversion_potential ∧ q.2.conversion_potential ≤ 1) ∧
    (0 ≤ q.2.profitability ∧ q.2.profitability ≤ 1) ∧
    (0 < q.2.size →
      aovMin univ ≤ q.2.avg_order_value ∧ q.2.avg_order_value ≤ aovMax univ)

/-- All six output scores of one scored segment lie in [0,1]. -/
def ScoresBounded (s : ScoredSegment) : Prop :=
  0 ≤ s.conversion_potential ∧ s.conversion_potential ≤ 1 ∧
  0 ≤ s.profitability ∧ s.profitability ≤ 1 ∧
  0 ≤ s.size_score ∧ s.size_score ≤ 1 ∧
  0 ≤ s.lift_vs_control ∧ s.lift_vs_control ≤ 1 ∧
  0 ≤ s.strategic_fit ∧ s.strategic_fit ≤ 1 ∧
  0 ≤ s.overall_score ∧ s.overall_score ≤ 1

/-- Stats invariant carried between the pipeline stages and needed by the
scorer: every segment's stored conversion potential and profitability lie
in [0,1]. -/
def StatsOk (segs : SegDict) : Prop :=
  ∀ q ∈ segs,
    0 ≤ q.2.conversion_potential ∧ q.2.conversion_potential ≤ 1 ∧
    0 ≤ q.2.profitability ∧ q.2.profitability ≤ 1

/-- Concrete reachable input for claim C1: the aggregate of a 12-record
universe in which every family has some undersized leaves (one user per
leaf key, ids 0..11), exactly the shape `aggregate_segments` produces. -/
def c1_segs : SegDict :=
  all_leaf_keys.enum.map (fun ie =>
    (ie.2, { users := [ie.1], size := 1, conversion_potential := 0,
             profitability := 0, avg_order_value := 0 }))

/-- Concrete input for claim C8: a single undersized leaf segment. -/
def c8_segs : SegDict :=
  [("HighAOV_HighEng_HighProf".toList,
    { users := [0], size := 1, conversion_potential := 0,
      profitability := 0, avg_order_value := 0 })]

/-- The four merge actions that can appear in the merge log. -/
def mergeActions : List String :=
  ["merge_profit_sibling", "merge_to_aov_parent", "merge_to_global_other",
   "merge_fallback_to_global"]

/-- A record with a given id and `avg_order_value` (other fields zero). -/
def mkAovRecord (i : UserId) (aov : ℚ) : Record :=
  { user_id := i, avg_order_value := aov, sessions_last_30d := 0,
    engagement_score := 0, profitability_score := 0, days_since_abandon := 0 }

/-- Concrete universe for claim C7: ten records whose `avg_order_value`
column is [10,10,10,10,10,10,10,10,90,90]. -/
def c7_univ : List Record :=
  [mkAovRecord 0 10, mkAovRecord 1 10, mkAovRecord 2 10, mkAovRecord 3 10,
   mkAovRecord 4 10, mkAovRecord 5 10, mkAovRecord 6 10, mkAovRecord 7 10,
   mkAovRecord 8 90, mkAovRecord 9 90]

/-- Concrete universe for claim C3's boundary counterexample: ten records
whose `avg_order_value` column is [10,10,10,10,10,10,10,10,10,90], making
the 20th and 80th AOV percentiles coincide at 10. -/
def c3_univ : List Record :=
  [mkAovRecord 0 10, mkAovRecord 1 10, mkAovRecord 2 10, mkAovRecord 3 10,
   mkAovRecord 4 10, mkAovRecord 5 10, mkAovRecord 6 10, mkAovRecord 7 10,
   mkAovRecord 8 10, mkAovRecord 9 90]

/-- Concrete oversized segment for claim C6: 45000 members whose sessions
attribute is 1 for the first 30000 and 2 for the rest. -/
def c6_data : SegmentData :=
  { users := List.range 45000, size := 45000, conversion_potential := 0,
    profitability := 0, avg_order_value := 0 }

/-- Lookup for claim C6's universe: member `u` has `sessions_last_30d` 1
when `u < 30000`, else 2. -/
def c6_lookup (u : UserId) : Record :=
  { user_id := u, avg_order_value := 0, sessions_last_30d := if u < 30000 then 1 else 2,
    engagement_score := 0, profitability_score := 0, days_since_abandon := 0 }

/-- The C6 split instance: one segment of size 45000, `max_size = 20000`. -/
def c6_out : SegDict :=
  (split_large_segments c6_lookup 20000 [("BigSegment".toList, c6_data)]).1

/-- The list of segment sizes used by the scorer. -/
def segSizes (segs : SegDict) : List ℕ := segs.map (fun p => p.2.size)

/-- `min(segment_sizes) if segment_sizes else 0` in the scorer. -/
def sizeMinOf (segs : SegDict) : ℕ :=
  if segSizes segs = [] then 0 else pyMinN (segSizes segs)

/-- `max(segment_sizes) if segment_sizes else 0` in the scorer. -/
def sizeMaxOf (segs : SegDict) : ℕ :=
  if segSizes segs = [] then 0 else pyMaxN (segSizes segs)

/-- The scorer's AOV normalisation for one segment, with the 0.5 fallback
for a degenerate universe AOV range or an empty segment. -/
def aov_norm_of (univ : List Record) (d : SegmentData) : ℚ :=
  if aovMin univ < aovMax univ ∧ 0 < d.size then
    (d.avg_order_value - aovMin univ) / (aovMax univ - aovMin univ)
  else 1/2

/-- The scorer's size score for one segment, with the 0.5 fallback when
all segment sizes are equal. -/
def size_score_of (segs : SegDict) (d : SegmentData) : ℚ :=
  if ¬ sizeMaxOf segs = sizeMinOf segs then
    ((d.size : ℚ) - (sizeMinOf segs : ℚ)) / ((sizeMaxOf segs : ℚ) - (sizeMinOf segs : ℚ))
  else 1/2

/-! ### String-splitting lemmas -/

theorem splitU_ne_nil (s : List Char) : splitU s ≠ [] := by
  induction s with
  | nil => simp [splitU]
  | cons c rest ih =>
    simp only [splitU]
    split
    · simp
    · cases hq : splitU rest with
      | nil => exact absurd hq ih
      | cons p ps => simp

theorem not_underscore_of_mem_splitU {s p : List Char} (h : p ∈ splitU s) :
    '_' ∉ p := by
  induction s generalizing p with
  | nil =>
    simp [splitU] at h
    simp [h]
  | cons c rest ih =>
    simp only [splitU] at h
    by_cases hc : c = '_'
    · simp [hc] at h
      rcases h with h | h
      · simp [h]
      · exact ih h
    · rw [if_neg hc] at h
      cases hq : splitU rest with
      | nil => exact absurd hq (splitU_ne_nil rest)
      | cons q qs =>
        rw [hq] at h
        rcases List.mem_cons.mp h with h | h
        · subst h
          intro hmem
          rcases List.mem_cons.mp hmem with h | h
          · exact hc h.symm
          · exact ih (hq ▸ List.mem_cons_self q qs) h
        · exact ih (hq ▸ List.mem_cons_of_mem q h)

theorem splitU_append {a : List Char} (ha : '_' ∉ a) (b : List Char) :
    splitU (a ++ '_' :: b) = a :: splitU b := by
  induction a with
  | nil => simp [splitU]
  | cons c cs ih =>
    have hc : ¬ c = '_' := fun h => ha (h ▸ List.mem_cons_self c cs)
    have ih' := ih (fun h => ha (List.mem_cons_of_mem c h))
    simp only [List.cons_append, splitU, if_neg hc]
    rw [show cs.append ('_' :: b) = cs ++ '_' :: b from rfl, ih']

theorem splitU_single {a : List Char} (ha : '_' ∉ a) : splitU a = [a] := by
  induction a with
  | nil => simp [splitU]
  | cons c cs ih =>
    have hc : ¬ c = '_' := fun h => ha (h ▸ List.mem_cons_self c cs)
    have ih' := ih (fun h => ha (List.mem_cons_of_mem c h))
    simp only [splitU, if_neg hc, ih']

theorem joinU_splitU (s : List Char) : joinU (splitU s) = s := by
  induction s with
  | nil => simp [splitU, joinU]
  | cons c rest ih =>
    simp only [splitU]
    by_cases hc : c = '_'
    · rw [if_pos hc]
      cases hq : splitU rest with
      | nil => exact absurd hq (splitU_ne_nil rest)
      | cons q qs =>
        rw [hq] at ih
        show joinU ([] :: q :: qs) = c :: rest
        simp only [joinU, List.nil_append, hc]
        rw [ih]
    · rw [if_neg hc]
      cases hq : splitU rest with
      | nil => exact absurd hq (splitU_ne_nil rest)
      | cons q qs =>
        rw [hq] at ih
        cases qs with
        | nil => simpa [joinU] using congrArg (c :: ·) ih
        | cons q' qs' =>
          show joinU ((c :: q) :: q' :: qs') = c :: rest
          simp only [joinU] at ih ⊢
          rw [List.cons_append, ih]

theorem keyStartsWith_append (p t : Key) : keyStartsWith (p ++ t) p = true := by
  induction p with
  | nil => cases t <;> simp [keyStartsWith]
  | cons c cs ih => simp [keyStartsWith, ih]

/-- A key whose split has at least two parts starts with its first part
followed by an underscore. -/
theorem keyStartsWith_of_splitU {k : Key} {a b : List Char}
    {rest : List (List Char)} (h : splitU k = a :: b :: rest) :
    keyStartsWith k (a ++ ['_']) = true := by
  have hk : k = a ++ '_' :: joinU (b :: rest) := by
    have := joinU_splitU k
    rw [h] at this
    cases rest with
    | nil => simpa [joinU] using this.symm
    | cons r rs => simpa [joinU] using this.symm
  rw [hk, List.append_cons]
  exact keyStartsWith_append (a ++ ['_']) (joinU (b :: rest))

/-! ### Sorting and dictionary lemmas -/

theorem mem_insertKey {a b : Key} {l : List Key} :
    a ∈ insertKey b l ↔ a = b ∨ a ∈ l := by
  induction l with
  | nil => simp [insertKey]
  | cons c cs ih =>
    simp only [insertKey]
    split
    · simp
    · simp only [List.mem_cons, ih]
      tauto

theorem mem_sortKeys {a : Key} {l : List Key} : a ∈ sortKeys l ↔ a ∈ l := by
  induction l with
  | nil => simp [sortKeys]
  | cons c cs ih => simp [sortKeys, mem_insertKey, ih]

theorem mem_insertPair {a b : Key × SegmentData} {l : List (Key × SegmentData)} :
    a ∈ insertPair b l ↔ a = b ∨ a ∈ l := by
  induction l with
  | nil => simp [insertPair]
  | cons c cs ih =>
    simp only [insertPair]
    split
    · simp
    · simp only [List.mem_cons, ih]
      tauto

theorem mem_sortPairs {a : Key × SegmentData} {l : SegDict} :
    a ∈ sortPairs l ↔ a ∈ l := by
  induction l with
  | nil => simp [sortPairs]
  | cons c cs ih => simp [sortPairs, mem_insertPair, ih]

theorem option_isSome_map {α β : Type} (f : α → β) (o : Option α) :
    (Option.map f o).isSome = o.isSome := by cases o <;> rfl

theorem dictFind_isSome_iff {segs : SegDict} {k : Key} :
    (dictFind segs k).isSome ↔ ∃ d, (k, d) ∈ segs := by
  constructor
  · intro h
    rw [dictFind, option_isSome_map] at h
    rcases List.find?_isSome.mp h with ⟨p, hp, hpk⟩
    obtain ⟨a, b⟩ := p
    obtain hpk := of_decide_eq_true hpk
    simp only at hpk
    subst hpk
    exact ⟨b, hp⟩
  · rintro ⟨d, hd⟩
    rw [dictFind, option_isSome_map]
    exact List.find?_isSome.mpr ⟨(k, d), hd, by simp⟩

/-! ### Termination-measure lemmas for the merge loop -/

theorem potSum_append (a b : SegDict) : potSum (a ++ b) = potSum a + potSum b := by
  simp [potSum]

theorem potSum_dictErase_le (segs : SegDict) (k : Key) :
    potSum (dictErase segs k) ≤ potSum segs := by
  induction segs with
  | nil => simp [dictErase]
  | cons p t ih =>
    simp only [dictErase, List.filter_cons] at *
    split
    · simpa [potSum] using ih
    · simp only [potSum, List.map_cons, List.sum_cons] at *
      omega

theorem potSum_dictErase_add {segs : SegDict} {k : Key}
    (h : (dictFind segs k).isSome) :
    potSum (dictErase segs k) + keyPot k ≤ potSum segs := by
  induction segs with
  | nil => simp [dictFind] at h
  | cons p t ih =>
    by_cases hpk : p.1 = k
    · have : dictErase (p :: t) k = dictErase t k := by
        simp [dictErase, List.filter_cons, hpk]
      rw [this]
      have h2 := potSum_dictErase_le t k
      simp only [potSum, List.map_cons, List.sum_cons] at *
      rw [hpk]
      omega
    · have h' : (dictFind t k).isSome := by
        rw [dictFind, option_isSome_map] at h ⊢
        rwa [List.find?_cons_of_neg _ (by simpa using hpk)] at h
      have : dictErase (p :: t) k = p :: dictErase t k := by
        simp [dictErase, List.filter_cons, hpk]
      rw [this]
      have := ih h'
      simp only [potSum, List.map_cons, List.sum_cons] at *
      omega

theorem dictFind_dictErase_ne {segs : SegDict} {k s : Key} (h : ¬ k = s) :
    dictFind (dictErase segs s) k = dictFind segs k := by
  induction segs with
  | nil => simp [dictErase]
  | cons p t ih =>
    by_cases hps : p.1 = s
    · have h1 : dictErase (p :: t) s = dictErase t s := by
        simp [dictErase, List.filter_cons, hps]
      have h2 : dictFind (p :: t) k = dictFind t k := by
        rw [dictFind, dictFind, List.find?_cons_of_neg]
        simp only [decide_eq_true_eq]
        rw [hps]
        exact fun hc => h hc.symm
      rw [h1, h2, ih]
    · have h1 : dictErase (p :: t) s = p :: dictErase t s := by
        simp [dictErase, List.filter_cons, hps]
      rw [h1]
      by_cases hpk : p.1 = k
      · rw [dictFind, dictFind, List.find?_cons_of_pos _ (by simpa using hpk),
          List.find?_cons_of_pos _ (by simpa using hpk)]
      · rw [dictFind, dictFind, List.find?_cons_of_neg _ (by simpa using hpk),
          List.find?_cons_of_neg _ (by simpa using hpk)]
        exact ih

theorem potSum_map_overwrite (segs : SegDict) (k : Key) (v : SegmentData) :
    potSum (segs.map (fun p => if p.1 = k then (k, v) else p)) = potSum segs := by
  induction segs with
  | nil => rfl
  | cons p t ih =>
    simp only [List.map_cons, potSum, List.sum_cons] at ih ⊢
    have hh : keyPot (if p.1 = k then ((k, v) : Key × SegmentData) else p).1
        = keyPot p.1 := by
      split
      · next hcond => rw [← hcond]
      · rfl
    omega

theorem potSum_dictSet_le (segs : SegDict) (k : Key) (v : SegmentData) :
    potSum (dictSet segs k v) ≤ potSum segs + keyPot k := by
  rw [dictSet]
  split
  · rw [potSum_map_overwrite]
    omega
  · rw [potSum_append]
    simp [potSum]

theorem recompOne_fst (lookup : UserId → Record) (p : Key × SegmentData) :
    (recompOne lookup p).1 = p.1 := by
  rw [recompOne]
  split <;> rfl

theorem recompOne_users (lookup : UserId → Record) (p : Key × SegmentData) :
    (recompOne lookup p).2.users = p.2.users := by
  rw [recompOne]
  split <;> rfl

theorem recompOne_size (lookup : UserId → Record) (p : Key × SegmentData) :
    (recompOne lookup p).2.size = p.2.users.length := by
  rw [recompOne]
  split
  · next h => simp [h]
  · rfl

theorem potSum_recompute (lookup : UserId → Record) (segs : SegDict) :
    potSum (recompute_stats lookup segs) = potSum segs := by
  rw [potSum, potSum, recompute_stats, List.map_map]
  exact congrArg List.sum (List.map_congr_left (fun p hp => by
    simp only [Function.comp]
    rw [recompOne_fst]))

theorem mergeCollect_potSum_le (dest : Key) (ks : List Key) :
    ∀ st : SegDict × List UserId,
      potSum (mergeCollect dest ks st).1 ≤ potSum st.1 := by
  induction ks with
  | nil => intro st; simp [mergeCollect]
  | cons k ks ih =>
    intro st
    simp only [mergeCollect]
    cases hf : dictFind st.1 k with
    | none => exact ih st
    | some d =>
      refine le_trans (ih _) ?_
      split
      · exact le_refl _
      · exact potSum_dictErase_le st.1 k

theorem mergeCollect_erases {dest k : Key} (hkd : ¬ k = dest) :
    ∀ (ks : List Key) (st : SegDict × List UserId), k ∈ ks →
      (dictFind st.1 k).isSome →
      potSum (mergeCollect dest ks st).1 + keyPot k ≤ potSum st.1 := by
  intro ks
  induction ks with
  | nil => intro st h; simp at h
  | cons s ks ih =>
    intro st hmem hfind
    by_cases hks : s = k
    · subst hks
      obtain ⟨d, hd⟩ := Option.isSome_iff_exists.mp hfind
      simp only [mergeCollect, hd, if_neg hkd]
      refine le_trans (Nat.add_le_add_right (mergeCollect_potSum_le dest ks _) _) ?_
      exact potSum_dictErase_add (by simp [hd])
    · have hmem' : k ∈ ks := by
        rcases List.mem_cons.mp hmem with h | h
        · exact absurd h.symm hks
        · exact h
      simp only [mergeCollect]
      cases hf : dictFind st.1 s with
      | none => exact ih st hmem' hfind
      | some d =>
        have hfind' : (dictFind (if s = dest then st.1 else dictErase st.1 s) k).isSome := by
          split
          · exact hfind
          · rwa [dictFind_dictErase_ne (fun h => hks h.symm)]
        refine le_trans (ih _ hmem' hfind') ?_
        split
        · exact le_refl _
        · exact potSum_dictErase_le st.1 s

theorem merge_segments_potSum_lt {segs : SegDict} {dest : Key} {ks : List Key}
    {k : Key} (hk : k ∈ ks) (hkd : ¬ k = dest)
    (hfind : (dictFind segs k).isSome) (hpot : keyPot dest < keyPot k) :
    potSum (merge_segments segs dest ks) < potSum segs := by
  have h1 : potSum (merge_segments segs dest ks)
      ≤ potSum (mergeCollect dest ks (segs, [])).1 + keyPot dest :=
    potSum_dictSet_le _ _ _
  have h2 : potSum (mergeCollect dest ks (segs, [])).1 + keyPot k ≤ potSum segs :=
    mergeCollect_erases hkd ks (segs, []) hk hfind
  omega

theorem keyPot_sink : keyPot sinkKey = 0 := by
  rw [keyPot, if_pos rfl]

theorem keyPot_hp {k : Key} {aov eng prof : List Char} {rest : List (List Char)}
    (hks : ¬ k = sinkKey) (hsp : splitU k = aov :: eng :: prof :: rest)
    (hprof : prof = "HighProf".toList ∨ prof = "LowProf".toList) :
    keyPot k = 3 := by
  rw [keyPot, if_neg hks, hsp]
  simp only [if_pos hprof]

theorem keyPot_else2 {k : Key} {aov eng prof : List Char} {rest : List (List Char)}
    (hks : ¬ k = sinkKey) (hsp : splitU k = aov :: eng :: prof :: rest)
    (hprof : prof = "ELSE".toList) (heng : ¬ eng = "ELSE".toList) :
    keyPot k = 2 := by
  rw [keyPot, if_neg hks, hsp]
  have h1 : ¬ (prof = "HighProf".toList ∨ prof = "LowProf".toList) := by
    subst hprof
    decide
  simp only [if_neg h1, if_pos hprof, if_neg heng]

theorem keyPot_else1 {k : Key} {aov eng prof : List Char} {rest : List (List Char)}
    (hks : ¬ k = sinkKey) (hsp : splitU k = aov :: eng :: prof :: rest)
    (hprof : prof = "ELSE".toList) (heng : eng = "ELSE".toList) :
    keyPot k = 1 := by
  rw [keyPot, if_neg hks, hsp]
  have h1 : ¬ (prof = "HighProf".toList ∨ prof = "LowProf".toList) := by
    subst hprof
    decide
  simp only [if_neg h1, if_pos hprof, if_pos heng]

theorem keyPot_weird {k : Key} {aov eng prof : List Char} {rest : List (List Char)}
    (hks : ¬ k = sinkKey) (hsp : splitU k = aov :: eng :: prof :: rest)
    (h1 : ¬ (prof = "HighProf".toList ∨ prof = "LowProf".toList))
    (h2 : ¬ prof = "ELSE".toList) :
    keyPot k = 3 := by
  rw [keyPot, if_neg hks, hsp]
  simp only [if_neg h1, if_neg h2]

theorem keyPot_pos {k : Key} {aov eng prof : List Char} {rest : List (List Char)}
    (hks : ¬ k = sinkKey) (hsp : splitU k = aov :: eng :: prof :: rest) :
    0 < keyPot k := by
  by_cases h1 : prof = "HighProf".toList ∨ prof = "LowProf".toList
  · rw [keyPot_hp hks hsp h1]
    omega
  · by_cases h2 : prof = "ELSE".toList
    · by_cases h3 : eng = "ELSE".toList
      · rw [keyPot_else1 hks hsp h2 h3]
        omega
      · rw [keyPot_else2 hks hsp h2 h3]
        omega
    · rw [keyPot_weird hks hsp h1 h2]
      omega

theorem keyPot_parent2_le (aov eng : List Char) (ha : '_' ∉ aov)
    (he : '_' ∉ eng) :
    keyPot (aov ++ ('_' :: (eng ++ ('_' :: "ELSE".toList)))) ≤ 2 := by
  by_cases hs : aov ++ ('_' :: (eng ++ ('_' :: "ELSE".toList))) = sinkKey
  · rw [keyPot, if_pos hs]
    omega
  · rw [keyPot, if_neg hs, splitU_append ha, splitU_append he,
      splitU_single (by decide)]
    have h1 : ¬ ("ELSE".toList = "HighProf".toList ∨ "ELSE".toList = "LowProf".toList) := by
      decide
    simp only [if_neg h1, if_pos rfl]
    split_ifs <;> omega

theorem keyPot_parent1_le (aov : List Char) (ha : '_' ∉ aov) :
    keyPot (aov ++ ('_' :: ("ELSE".toList ++ ('_' :: "ELSE".toList)))) ≤ 1 := by
  by_cases hs : aov ++ ('_' :: ("ELSE".toList ++ ('_' :: "ELSE".toList))) = sinkKey
  · rw [keyPot, if_pos hs]
    omega
  · rw [keyPot, if_neg hs, splitU_append ha, splitU_append (by decide),
      splitU_single (by decide)]
    have h1 : ¬ ("ELSE".toList = "HighProf".toList ∨ "ELSE".toList = "LowProf".toList) := by
      decide
    simp [if_neg h1]

theorem mergeMove_facts {segs : SegDict} {k : Key}
    (hlen : 3 ≤ (splitU k).length) (hks : ¬ k = sinkKey)
    (hfind : (dictFind segs k).isSome) :
    potSum (mergeMove segs k).1 < potSum segs ∧
      (mergeMove segs k).2.action ∈ mergeActions := by
  rcases hsp : splitU k with _ | ⟨aov, _ | ⟨eng, _ | ⟨prof, rest⟩⟩⟩
  · rw [hsp] at hlen
    simp at hlen
  · rw [hsp] at hlen
    simp at hlen
  · rw [hsp] at hlen
    simp at hlen
  have ha : '_' ∉ aov :=
    not_underscore_of_mem_splitU (by rw [hsp]; exact List.mem_cons_self _ _)
  have he : '_' ∉ eng :=
    not_underscore_of_mem_splitU
      (by rw [hsp]; exact List.mem_cons_of_mem _ (List.mem_cons_self _ _))
  have hmemmap : k ∈ segs.map (fun p => p.1) := by
    obtain ⟨d, hd⟩ := dictFind_isSome_iff.mp hfind
    exact List.mem_map.mpr ⟨(k, d), hd, rfl⟩
  by_cases h1 : prof = "HighProf".toList ∨ prof = "LowProf".toList
  · simp only [mergeMove, hsp, if_pos h1]
    have hkd : ¬ k = aov ++ ('_' :: (eng ++ ('_' :: "ELSE".toList))) := by
      intro heq
      have hc := congrArg splitU heq
      rw [hsp, splitU_append ha, splitU_append he, splitU_single (by decide)] at hc
      have hce : prof = "ELSE".toList ∧ rest = [] := by simpa using hc
      have hprof_eq := hce.1
      rcases h1 with h | h <;> rw [h] at hprof_eq <;> exact absurd hprof_eq (by decide)
    constructor
    · refine merge_segments_potSum_lt (List.mem_filter.mpr ⟨by simp, hfind⟩) hkd hfind ?_
      calc keyPot (aov ++ ('_' :: (eng ++ ('_' :: "ELSE".toList)))) ≤ 2 :=
            keyPot_parent2_le aov eng ha he
        _ < keyPot k := by rw [keyPot_hp hks hsp h1]; omega
    · decide
  · by_cases h2 : prof = "ELSE".toList ∧ ¬ eng = "ELSE".toList
    · simp only [mergeMove, hsp, if_neg h1, if_pos h2]
      have hkd : ¬ k = aov ++ ('_' :: ("ELSE".toList ++ ('_' :: "ELSE".toList))) := by
        intro heq
        have hc := congrArg splitU heq
        rw [hsp, splitU_append ha, splitU_append (by decide),
          splitU_single (by decide)] at hc
        have hce : eng = "ELSE".toList ∧ prof = "ELSE".toList ∧ rest = [] := by
          simpa using hc
        exact h2.2 hce.1
      constructor
      · refine merge_segments_potSum_lt
          (List.mem_filter.mpr ⟨hmemmap, keyStartsWith_of_splitU hsp⟩) hkd hfind ?_
        calc keyPot (aov ++ ('_' :: ("ELSE".toList ++ ('_' :: "ELSE".toList)))) ≤ 1 :=
              keyPot_parent1_le aov ha
          _ < keyPot k := by rw [keyPot_else2 hks hsp h2.1 h2.2]; omega
      · decide
    · by_cases h3 : eng = "ELSE".toList ∧ ¬ aov = "Other".toList
      · simp only [mergeMove, hsp, if_neg h1, if_neg h2, if_pos h3]
        constructor
        · refine merge_segments_potSum_lt
            (List.mem_filter.mpr ⟨hmemmap, keyStartsWith_of_splitU hsp⟩) hks hfind ?_
          rw [keyPot_sink]
          exact keyPot_pos hks hsp
        · decide
      · simp only [mergeMove, hsp, if_neg h1, if_neg h2, if_neg h3]
        constructor
        · refine merge_segments_potSum_lt (List.mem_cons_self _ _) hks hfind ?_
          rw [keyPot_sink]
          exact keyPot_pos hks hsp
        · decide

theorem mergeStep_facts {lookup : UserId → Record} {min_size : ℕ}
    {segs segs' : SegDict} {e : LogEntry}
    (h : mergeStep lookup min_size segs = some (segs', e)) :
    potSum segs' < potSum segs ∧ e.action ∈ mergeActions := by
  rw [mergeStep] at h
  cases hf : (smallKeys min_size segs).find?
      (fun k => decide (3 ≤ (splitU k).length)) with
  | none =>
    rw [hf] at h
    exact absurd h (by simp)
  | some k =>
    rw [hf] at h
    simp only [Option.some.injEq, Prod.mk.injEq] at h
    obtain ⟨hsegs', he⟩ := h
    have hpred : 3 ≤ (splitU k).length := by
      have hp := List.find?_some hf
      exact of_decide_eq_true hp
    have hmem : k ∈ smallKeys min_size segs := List.mem_of_find?_eq_some hf
    rw [smallKeys, mem_sortKeys] at hmem
    obtain ⟨p, hpmem, hpk⟩ := List.mem_map.mp hmem
    obtain ⟨a, b⟩ := p
    simp only at hpk
    rw [hpk] at hpmem
    obtain ⟨hpin, hcond⟩ := List.mem_filter.mp hpmem
    have hks : ¬ k = sinkKey := by
      simp only [Bool.and_eq_true, decide_eq_true_eq] at hcond
      exact hcond.2
    have hfind : (dictFind segs k).isSome := dictFind_isSome_iff.mpr ⟨b, hpin⟩
    obtain ⟨hdec, hact⟩ := mergeMove_facts hpred hks hfind
    constructor
    · rw [← hsegs', potSum_recompute]
      exact hdec
    · rw [← he]
      exact hact

theorem mergeLoop_props (lookup : UserId → Record) (min_size : ℕ) :
    ∀ (fuel : ℕ) (segs : SegDict) (log : List LogEntry), potSum segs < fuel →
      ∃ out, mergeLoop lookup min_size fuel segs log = some out ∧
        out.2.length ≤ log.length + potSum segs ∧
        ∀ e ∈ out.2, e ∈ log ∨ e.action ∈ mergeActions := by
  intro fuel
  induction fuel with
  | zero =>
    intro segs log h
    exact absurd h (Nat.not_lt_zero _)
  | succ f ih =>
    intro segs log h
    cases hstep : mergeStep lookup min_size segs with
    | none =>
      refine ⟨(segs, log), by rw [mergeLoop, hstep], by simp, ?_⟩
      exact fun e he => Or.inl he
    | some pr =>
      obtain ⟨segs', e⟩ := pr
      obtain ⟨hdec, hact⟩ := mergeStep_facts hstep
      obtain ⟨out, hout, hlen, hall⟩ := ih segs' (log ++ [e]) (by omega)
      refine ⟨out, by rw [mergeLoop, hstep]; exact hout, ?_, ?_⟩
      · simp only [List.length_append, List.length_cons, List.length_nil] at hlen
        omega
      · intro e' he'
        rcases hall e' he' with hin | hother
        · rcases List.mem_append.mp hin with hl | hl
          · exact Or.inl hl
          · simp only [List.mem_cons, List.not_mem_nil, or_false] at hl
            subst hl
            exact Or.inr hact
        · exact Or.inr hother

theorem keyPot_le_three (k : Key) : keyPot k ≤ 3 := by
  rw [keyPot]
  split
  · omega
  · split
    · split_ifs <;> omega
    · omega

/-- C10: `merge_small_segments` terminates for every finite input segment
dictionary and every positive `min_size`, despite the source's unbounded
`while True` loop.  Each iteration either merges nothing and exits, or
removes the processed undersized key and installs a key strictly higher in
the 3-level hierarchy (profitability `_ELSE` parent, AOV `_ELSE_ELSE`
parent, or the sink `Other_ELSE_ELSE`), so the total hierarchy potential
`potSum` strictly decreases; running the loop with fuel `potSum segs + 1`
provably reaches the loop's exit, and `merge_small_segments` returns that
fixed point. -/
theorem merge_loop_terminates_c10 (lookup : UserId → Record) (min_size : ℕ)
    (segs : SegDict) (hmin : 0 < min_size) :
    ∃ out, mergeLoop lookup min_size (potSum segs + 1) segs [] = some out ∧
      merge_small_segments lookup min_size segs = out := by
  obtain hmin' := hmin
  obtain ⟨out, hout, -, -⟩ :=
    mergeLoop_props lookup min_size (potSum segs + 1) segs [] (by omega)
  exact ⟨out, hout, by rw [merge_small_segments, hout]; rfl⟩

/-- Witness for C10: the termination theorem applied at a concrete input
(the empty dictionary and the pipeline's `min_size = 500`). -/
theorem merge_loop_terminates_c10_witness :
    0 < 500 ∧
    ∃ out, mergeLoop (fun _ => defaultRecord) 500 (potSum [] + 1) [] [] = some out ∧
      merge_small_segments (fun _ => defaultRecord) 500 [] = out :=
  ⟨by decide, merge_loop_terminates_c10 (fun _ => defaultRecord) 500 [] (by decide)⟩

/-- C8 counterexample: on the one-key dictionary `c8_segs` (a single
undersized leaf) with `min_size = 500`, the fixed-point loop performs 3
merge moves — strictly more than `number_of_keys = 1` — and the merge log
contains no warning of any kind: every entry records one of the four merge
actions.  So the loop does not bound its iteration count by the number of
keys, and exceeding that count produces no warning log entry. -/
theorem merge_bound_c8_counterexample :
    c8_segs.length = 1 ∧
    (merge_small_segments (fun _ => defaultRecord) 500 c8_segs).2.length = 3 ∧
    ¬ ((merge_small_segments (fun _ => defaultRecord) 500 c8_segs).2.length
        ≤ c8_segs.length) ∧
    ∀ e ∈ (merge_small_segments (fun _ => defaultRecord) 500 c8_segs).2,
      e.action ∈ mergeActions := by
  decide

/-- C8 amended: the merge loop carries no explicit iteration counter and no
warning mechanism; it is intrinsically bounded instead — with fuel
`potSum segs + 1` it always reaches its exit (so it cannot crash or spin),
it performs at most `potSum segs ≤ 3 × number_of_keys` merge moves, and
every entry of the merge log records one of the four merge actions (a
warning entry cannot occur); processing always continues to completion. -/
theorem merge_bound_c8 (lookup : UserId → Record) (min_size : ℕ)
    (segs : SegDict) :
    (mergeLoop lookup min_size (potSum segs + 1) segs []).isSome ∧
    (merge_small_segments lookup min_size segs).2.length ≤ potSum segs ∧
    potSum segs ≤ 3 * segs.length ∧
    ∀ e ∈ (merge_small_segments lookup min_size segs).2,
      e.action ∈ mergeActions := by
  obtain ⟨out, hout, hlen, hall⟩ :=
    mergeLoop_props lookup min_size (potSum segs + 1) segs [] (by omega)
  have hm : merge_small_segments lookup min_size segs = out := by
    rw [merge_small_segments, hout]
    rfl
  refine ⟨by rw [hout]; rfl, ?_, ?_, ?_⟩
  · rw [hm]
    simpa using hlen
  · have h3 := List.sum_le_card_nsmul (segs.map fun p => keyPot p.1) 3 (by
      intro x hx
      obtain ⟨q, -, rfl⟩ := List.mem_map.mp hx
      exact keyPot_le_three q.1)
    simpa [potSum, smul_eq_mul, Nat.mul_comm] using h3
  · intro e he
    rw [hm] at he
    rcases hall e he with h | h
    · simp at h
    · exact h

/-- C1: the merge invariant FAILS in the code.  `_merge_segments` assigns
the destination entry instead of extending it, so when a merge's
destination already exists and is not among the sources (which happens on
the second AOV family to collapse into the sink `Other_ELSE_ELSE`), the
destination's previous members are silently dropped.  Evaluating the code
at the failing input `c1_segs` (the aggregate of a 12-record universe, one
member per leaf key, `min_size = 500`): the total member count drops from
12 to 4, everything having collapsed into the single sink key. -/
theorem merge_loses_members_c1 :
    totalSize c1_segs = 12 ∧
    totalSize (merge_small_segments (fun _ => defaultRecord) 500 c1_segs).1 = 4 ∧
    ¬ (totalSize (merge_small_segments (fun _ => defaultRecord) 500 c1_segs).1
        = totalSize c1_segs) ∧
    ((merge_small_segments (fun _ => defaultRecord) 500 c1_segs).1).map
      (fun p => p.1) = [sinkKey] := by
  set_option maxRecDepth 100000 in decide

/-- C7 counterexample: on the universe with `avg_order_value` column
[10,10,10,10,10,10,10,10,90,90], `compute_percentiles` (numpy
linear-interpolation semantics) returns `AOV_p80 = 26`, not 82 as the
claim states: the position is `(10-1)·0.8 = 7.2`, interpolating between
the sorted values 10 (index 7) and 90 (index 8) as `10 + 0.2·80 = 26`. -/
theorem percentile_c7_counterexample :
    (compute_percentiles c7_univ).AOV_p20 = 10 ∧
    (compute_percentiles c7_univ).AOV_p80 = 26 ∧
    ¬ ((compute_percentiles c7_univ).AOV_p80 = 82) := by
  refine ⟨?_, ?_, ?_⟩ <;>
    norm_num [compute_percentiles, c7_univ, mkAovRecord, np_percentile,
      np_quantile, sortQ, insertQ, nthQ]

/-- C7 amended: on the universe with `avg_order_value` column
[10,10,10,10,10,10,10,10,90,90], `compute_percentiles` returns
`AOV_p20 = 10` and `AOV_p80 = 26` (not 82) under linear-interpolation
percentile semantics, and bucket assignment then classifies the eight
value-10 records as `LowAOV` (`10 ≤ p20`) and the two value-90 records as
`HighAOV` (`90 > p80`), exactly as the claim's classification asserts. -/
theorem percentile_c7 :
    (compute_percentiles c7_univ).AOV_p20 = 10 ∧
    (compute_percentiles c7_univ).AOV_p80 = 26 ∧
    c7_univ.map (fun r => aov_bin (compute_percentiles c7_univ) r.avg_order_value)
      = ["LowAOV".toList, "LowAOV".toList, "LowAOV".toList, "LowAOV".toList,
         "LowAOV".toList, "LowAOV".toList, "LowAOV".toList, "LowAOV".toList,
         "HighAOV".toList, "HighAOV".toList] := by
  have h20 : (compute_percentiles c7_univ).AOV_p20 = 10 := by
    norm_num [compute_percentiles, c7_univ, mkAovRecord, np_percentile,
      np_quantile, sortQ, insertQ, nthQ]
  have h80 : (compute_percentiles c7_univ).AOV_p80 = 26 := by
    norm_num [compute_percentiles, c7_univ, mkAovRecord, np_percentile,
      np_quantile, sortQ, insertQ, nthQ]
  refine ⟨h20, h80, ?_⟩
  generalize hP : compute_percentiles c7_univ = P at h20 h80 ⊢
  norm_num [c7_univ, mkAovRecord, aov_bin, h20, h80]

/-- C3 counterexample: thresholds are computed from a universe
([10,10,10,10,10,10,10,10,10,90]) in which the 20th and 80th AOV
percentiles coincide at 10; a record with `avg_order_value` exactly equal
to `AOV_p80` is then classified `LowAOV` (the `≤ p20` rule fires first),
not `MidAOV` as the claim asserts for every threshold set. -/
theorem boundary_c3_counterexample :
    (compute_percentiles c3_univ).AOV_p20 = 10 ∧
    (compute_percentiles c3_univ).AOV_p80 = 10 ∧
    aov_bin (compute_percentiles c3_univ) 10 = "LowAOV".toList ∧
    ¬ (aov_bin (compute_percentiles c3_univ) 10 = "MidAOV".toList) := by
  have h20 : (compute_percentiles c3_univ).AOV_p20 = 10 := by
    norm_num [compute_percentiles, c3_univ, mkAovRecord, np_percentile,
      np_quantile, sortQ, insertQ, nthQ]
  have h80 : (compute_percentiles c3_univ).AOV_p80 = 10 := by
    norm_num [compute_percentiles, c3_univ, mkAovRecord, np_percentile,
      np_quantile, sortQ, insertQ, nthQ]
  refine ⟨h20, h80, ?_, ?_⟩
  · rw [aov_bin, if_pos (by rw [h20])]
  · rw [aov_bin, if_pos (by rw [h20])]
    decide

/-- C3 amended: for thresholds with `p20 ≤ p80` (true of genuine
percentiles) the bucket assignment obeys the boundary policy exactly as
coded — `value ≤ p20` gives `LowAOV` (so a value equal to `p20` is
`LowAOV`), `value > p80` gives `HighAOV`, anything else gives `MidAOV`;
a value exactly equal to `p80` is `MidAOV` provided `p20 < p80` (when
`p20 = p80` the low rule fires first and it is `LowAOV`); engagement and
profitability tie to the low side: `value > p50` gives High, otherwise
Low, so a value exactly equal to `p50` is Low. -/
theorem boundary_policy_c3 (p : Percentiles) (v e pr : ℚ)
    (hp : p.AOV_p20 ≤ p.AOV_p80) :
    (v ≤ p.AOV_p20 → aov_bin p v = "LowAOV".toList) ∧
    (p.AOV_p80 < v → aov_bin p v = "HighAOV".toList) ∧
    (p.AOV_p20 < v → v ≤ p.AOV_p80 → aov_bin p v = "MidAOV".toList) ∧
    (v = p.AOV_p20 → aov_bin p v = "LowAOV".toList) ∧
    (p.AOV_p20 < p.AOV_p80 → v = p.AOV_p80 → aov_bin p v = "MidAOV".toList) ∧
    (p.eng_p50 < e → eng_bin p e = "HighEng".toList) ∧
    (e ≤ p.eng_p50 → eng_bin p e = "LowEng".toList) ∧
    (e = p.eng_p50 → eng_bin p e = "LowEng".toList) ∧
    (p.prof_p50 < pr → prof_bin p pr = "HighProf".toList) ∧
    (pr ≤ p.prof_p50 → prof_bin p pr = "LowProf".toList) ∧
    (pr = p.prof_p50 → prof_bin p pr = "LowProf".toList) := by
  refine ⟨?_, ?_, ?_, ?_, ?_, ?_, ?_, ?_, ?_, ?_, ?_⟩
  · intro h
    rw [aov_bin, if_pos h]
  · intro h
    rw [aov_bin, if_neg (by linarith), if_pos h]
  · intro h1 h2
    rw [aov_bin, if_neg (by linarith), if_neg (by linarith)]
  · intro h
    rw [aov_bin, if_pos (le_of_eq h)]
  · intro h1 h2
    rw [aov_bin, if_neg (by linarith), if_neg (by linarith)]
  · intro h
    rw [eng_bin, if_pos h]
  · intro h
    rw [eng_bin, if_neg (by linarith)]
  · intro h
    rw [eng_bin, if_neg (by linarith)]
  · intro h
    rw [prof_bin, if_pos h]
  · intro h
    rw [prof_bin, if_neg (by linarith)]
  · intro h
    rw [prof_bin, if_neg (by linarith)]

/-- Witness for C3's amended boundary policy at concrete thresholds
(p20 = 10 < p80 = 20, p50 cuts at 1/2) and values on the boundaries. -/
theorem boundary_policy_c3_witness :
    (Percentiles.mk 10 15 20 (1/2) (1/2)).AOV_p20
      ≤ (Percentiles.mk 10 15 20 (1/2) (1/2)).AOV_p80 ∧
    ((10 ≤ (Percentiles.mk 10 15 20 (1/2) (1/2)).AOV_p20 →
      aov_bin (Percentiles.mk 10 15 20 (1/2) (1/2)) 10 = "LowAOV".toList) ∧
     ((Percentiles.mk 10 15 20 (1/2) (1/2)).AOV_p80 < 10 →
      aov_bin (Percentiles.mk 10 15 20 (1/2) (1/2)) 10 = "HighAOV".toList) ∧
     ((Percentiles.mk 10 15 20 (1/2) (1/2)).AOV_p20 < 10 →
      10 ≤ (Percentiles.mk 10 15 20 (1/2) (1/2)).AOV_p80 →
      aov_bin (Percentiles.mk 10 15 20 (1/2) (1/2)) 10 = "MidAOV".toList) ∧
     (10 = (Percentiles.mk 10 15 20 (1/2) (1/2)).AOV_p20 →
      aov_bin (Percentiles.mk 10 15 20 (1/2) (1/2)) 10 = "LowAOV".toList) ∧
     ((Percentiles.mk 10 15 20 (1/2) (1/2)).AOV_p20
        < (Percentiles.mk 10 15 20 (1/2) (1/2)).AOV_p80 →
      10 = (Percentiles.mk 10 15 20 (1/2) (1/2)).AOV_p80 →
      aov_bin (Percentiles.mk 10 15 20 (1/2) (1/2)) 10 = "MidAOV".toList) ∧
     ((Percentiles.mk 10 15 20 (1/2) (1/2)).eng_p50 < (1/2 : ℚ) →
      eng_bin (Percentiles.mk 10 15 20 (1/2) (1/2)) (1/2) = "HighEng".toList) ∧
     ((1/2 : ℚ) ≤ (Percentiles.mk 10 15 20 (1/2) (1/2)).eng_p50 →
      eng_bin (Percentiles.mk 10 15 20 (1/2) (1/2)) (1/2) = "LowEng".toList) ∧
     ((1/2 : ℚ) = (Percentiles.mk 10 15 20 (1/2) (1/2)).eng_p50 →
      eng_bin (Percentiles.mk 10 15 20 (1/2) (1/2)) (1/2) = "LowEng".toList) ∧
     ((Percentiles.mk 10 15 20 (1/2) (1/2)).prof_p50 < (1/2 : ℚ) →
      prof_bin (Percentiles.mk 10 15 20 (1/2) (1/2)) (1/2) = "HighProf".toList) ∧
     ((1/2 : ℚ) ≤ (Percentiles.mk 10 15 20 (1/2) (1/2)).prof_p50 →
      prof_bin (Percentiles.mk 10 15 20 (1/2) (1/2)) (1/2) = "LowProf".toList) ∧
     ((1/2 : ℚ) = (Percentiles.mk 10 15 20 (1/2) (1/2)).prof_p50 →
      prof_bin (Percentiles.mk 10 15 20 (1/2) (1/2)) (1/2) = "LowProf".toList)) :=
  ⟨by norm_num,
   boundary_policy_c3 (Percentiles.mk 10 15 20 (1/2) (1/2)) 10 (1/2) (1/2)
     (by norm_num)⟩

/-- C9 counterexample: the core accepts no `min_size`/`max_size`
configuration — `determine_size_constraints` ignores its argument and
returns the constants `(500, 20000)` for every universe size, and the
pipeline performs no configuration validation, so there is no input
through which `max_size < min_size` could be supplied and rejected. -/
theorem config_c9_counterexample :
    determine_size_constraints 0 = (500, 20000) ∧
    determine_size_constraints 123456 = (500, 20000) ∧
    determine_size_constraints 0 = determine_size_constraints 123456 := by
  decide

/-- C9 amended: `split_oversize` is the only configuration input the core
accepts; the size bounds are hard-wired — `determine_size_constraints`
returns `(500, 20000)` for every universe size — and these constants
satisfy the validity conditions (positive, `min_size ≤ max_size`), so no
rejection path exists or is needed. -/
theorem config_c9 :
    (∀ n : ℕ, determine_size_constraints n = (500, 20000)) ∧
    0 < (determine_size_constraints 0).1 ∧
    (determine_size_constraints 0).1 ≤ (determine_size_constraints 0).2 :=
  ⟨fun _ => rfl, by decide, by decide⟩

/-- C4: for every entry of the scored output there is a source segment of
the same key such that `conversion_potential`/`profitability` are the
stored stats (0 for an empty segment), `lift_vs_control =
clamp01(0.6·conversion_potential + 0.4·profitability)`, `strategic_fit =
clamp01(0.4·profitability + 0.6·aov_norm)` where `aov_norm` is the
segment's normalised mean AOV falling back to 0.5 when the universe AOV
range is degenerate or the segment is empty, `size_score` is the
normalised size falling back to 0.5 when all segment sizes are equal, and
`overall_score = clamp01(0.30·conversion_potential + 0.25·lift_vs_control
+ 0.20·profitability + 0.10·size_score + 0.15·strategic_fit)`. -/
theorem scorer_formulas_c4 (segs : SegDict) (univ : List Record)
    (q : Key × ScoredSegment) (hq : q ∈ compute_final_scores segs univ) :
    ∃ d : SegmentData, (q.1, d) ∈ segs ∧
      q.2.conversion_potential = (if 0 < d.size then d.conversion_potential else 0) ∧
      q.2.profitability = (if 0 < d.size then d.profitability else 0) ∧
      q.2.size = d.size ∧
      q.2.lift_vs_control
        = clamp01 (q.2.conversion_potential * 0.6 + q.2.profitability * 0.4) ∧
      q.2.strategic_fit
        = clamp01 (0.4 * q.2.profitability + 0.6 * aov_norm_of univ d) ∧
      q.2.size_score = size_score_of segs d ∧
      q.2.overall_score
        = clamp01 (WEIGHTS_conversion * q.2.conversion_potential
            + WEIGHTS_lift * q.2.lift_vs_control
            + WEIGHTS_profitability * q.2.profitability
            + WEIGHTS_size * q.2.size_score
            + WEIGHTS_strategic * q.2.strategic_fit) := by
  simp only [compute_final_scores] at hq
  obtain ⟨q0, hq0, rfl⟩ := List.mem_map.mp hq
  obtain ⟨k0, d0⟩ := q0
  exact ⟨d0, mem_sortPairs.mp hq0, rfl, rfl, rfl, rfl, rfl, rfl, rfl⟩

/-- Witness for C4: the formula theorem applied to the concrete scored
output of a one-segment dictionary (the empty aggregate) over the empty
universe, whose scores evaluate to size_score = 1/2 (all sizes equal),
strategic_fit = clamp01(0.6·0.5) = 3/10 and overall_score = 19/200. -/
theorem scorer_formulas_c4_witness :
    (("Seg".toList,
      ({ segment_name := "Seg".toList, size := 0, conversion_potential := 0,
         profitability := 0, size_score := 1/2, lift_vs_control := 0,
         strategic_fit := 3/10, overall_score := 19/200 } : ScoredSegment))
      ∈ compute_final_scores [("Seg".toList, emptyAggregate)] []) ∧
    (∃ d : SegmentData,
      ("Seg".toList, d) ∈ [("Seg".toList, emptyAggregate)] ∧ True) := by
  have hmem : ("Seg".toList,
      ({ segment_name := "Seg".toList, size := 0, conversion_potential := 0,
         profitability := 0, size_score := 1/2, lift_vs_control := 0,
         strategic_fit := 3/10, overall_score := 19/200 } : ScoredSegment))
      ∈ compute_final_scores [("Seg".toList, emptyAggregate)] [] := by
    norm_num [compute_final_scores, sortPairs, insertPair, scoreOne, clamp01,
      emptyAggregate, pyMinQ, pyMaxQ, pyMinN, pyMaxN, segSizes, WEIGHTS_conversion,
      WEIGHTS_lift, WEIGHTS_profitability, WEIGHTS_size, WEIGHTS_strategic]
  obtain ⟨d, hd, -⟩ := scorer_formulas_c4 [("Seg".toList, emptyAggregate)] [] _ hmem
  exact ⟨hmem, d, hd, trivial⟩

/-! ### Aggregation lemmas -/

theorem leaf_segment_mem_all (p : Percentiles) (r : Record) :
    leaf_segment p r ∈ all_leaf_keys := by
  rw [leaf_segment, aov_bin, eng_bin, prof_bin]
  split_ifs <;> decide

theorem all_leaf_keys_nodup : all_leaf_keys.Nodup := by decide

theorem all_leaf_keys_length : all_leaf_keys.length = 12 := by decide

theorem mem_present_of_mem {p : Percentiles} {univ : List Record} {r : Record}
    (hr : r ∈ univ) :
    leaf_segment p r ∈ (sortKeys (univ.map (leaf_segment p))).dedup := by
  rw [List.mem_dedup, mem_sortKeys]
  exact List.mem_map.mpr ⟨r, hr, rfl⟩

theorem present_subset_all {p : Percentiles} {univ : List Record} {k : Key}
    (hk : k ∈ (sortKeys (univ.map (leaf_segment p))).dedup) :
    k ∈ all_leaf_keys := by
  rw [List.mem_dedup, mem_sortKeys] at hk
  obtain ⟨r, -, rfl⟩ := List.mem_map.mp hk
  exact leaf_segment_mem_all p r

theorem map_fst_pairs (l : List Key) (f : Key → SegmentData) :
    (l.map (fun k => (k, f k))).map (fun q : Key × SegmentData => q.1) = l := by
  induction l with
  | nil => rfl
  | cons a t ih => simp [ih]

theorem aggregate_keys_perm (p : Percentiles) (univ : List Record) :
    ((aggregate_segments p univ).map (fun q => q.1)).Perm all_leaf_keys := by
  rw [aggregate_segments]
  simp only [List.map_append]
  rw [map_fst_pairs _ (fun k => mkAggregate (univ.filter (fun r => leaf_segment p r = k))),
    map_fst_pairs _ (fun _ => emptyAggregate)]
  set present := (sortKeys (univ.map (leaf_segment p))).dedup with hpres
  have hnd1 : present.Nodup := List.nodup_dedup _
  have hnd2 : (all_leaf_keys.filter (fun k => ¬ k ∈ present)).Nodup :=
    all_leaf_keys_nodup.filter _
  have hdisj : present.Disjoint
      (all_leaf_keys.filter (fun k => ¬ k ∈ present)) := by
    intro a ha hb
    obtain ⟨-, hnot⟩ := List.mem_filter.mp hb
    have : ¬ a ∈ present := by simpa using hnot
    exact this ha
  rw [List.perm_ext_iff_of_nodup (hnd1.append hnd2 hdisj) all_leaf_keys_nodup]
  intro a
  constructor
  · intro ha
    rcases List.mem_append.mp ha with h | h
    · exact present_subset_all h
    · exact (List.mem_filter.mp h).1
  · intro ha
    by_cases hp : a ∈ present
    · exact List.mem_append_left _ hp
    · exact List.mem_append_right _
        (List.mem_filter.mpr ⟨ha, by simpa using hp⟩)

theorem filter_groups_perm (p : Percentiles) (univ : List Record) :
    ∀ ks : List Key, ks.Nodup →
      ((ks.map (fun k => univ.filter (fun r => leaf_segment p r = k))).flatten).Perm
        (univ.filter (fun r => decide (leaf_segment p r ∈ ks))) := by
  intro ks
  induction ks with
  | nil => simp
  | cons k ks ih =>
    intro hnd
    obtain ⟨hk, hnd'⟩ := List.nodup_cons.mp hnd
    simp only [List.map_cons, List.flatten_cons]
    refine List.Perm.trans (List.Perm.append_left _ (ih hnd')) ?_
    have hsplit := List.filter_append_perm
      (fun r => decide (leaf_segment p r = k))
      (univ.filter (fun r => decide (leaf_segment p r ∈ k :: ks)))
    have hA : (univ.filter (fun r => decide (leaf_segment p r ∈ k :: ks))).filter
        (fun r => decide (leaf_segment p r = k))
        = univ.filter (fun r => decide (leaf_segment p r = k)) := by
      rw [List.filter_filter]
      apply List.filter_congr
      intro r hr
      by_cases h : leaf_segment p r = k <;> simp [h]
    have hB : (univ.filter (fun r => decide (leaf_segment p r ∈ k :: ks))).filter
        (fun r => !(decide (leaf_segment p r = k)))
        = univ.filter (fun r => decide (leaf_segment p r ∈ ks)) := by
      rw [List.filter_filter]
      apply List.filter_congr
      intro r hr
      by_cases h : leaf_segment p r = k
      · simp [h, hk]
      · simp [h]
    rw [hA, hB] at hsplit
    exact hsplit

theorem empty_users_flatten (l : List Key) :
    (((l.map (fun k => (k, emptyAggregate))).map
      (fun q : Key × SegmentData => q.2.users)).flatten) = [] := by
  induction l with
  | nil => rfl
  | cons a t ih => simp [emptyAggregate, ih]

theorem map_users_pairs (l : List Key) (g : Key → List Record) :
    ((l.map (fun k => (k, mkAggregate (g k)))).map
      (fun q : Key × SegmentData => q.2.users))
      = l.map (fun k => ((g k).map (fun r => r.user_id))) := by
  induction l with
  | nil => rfl
  | cons a t ih => simp [mkAggregate, ih]

theorem aggregate_users_perm (p : Percentiles) (univ : List Record) :
    (((aggregate_segments p univ).map (fun q => q.2.users)).flatten).Perm
      (univ.map (fun r => r.user_id)) := by
  rw [aggregate_segments]
  simp only [List.map_append, List.flatten_append]
  rw [empty_users_flatten, List.append_nil]
  rw [map_users_pairs _ (fun k => univ.filter (fun r => leaf_segment p r = k))]
  have hmf : ((((sortKeys (univ.map (leaf_segment p))).dedup).map
      (fun k => ((univ.filter (fun r => leaf_segment p r = k)).map
        (fun r => r.user_id)))).flatten)
      = (((((sortKeys (univ.map (leaf_segment p))).dedup).map
          (fun k => univ.filter (fun r => leaf_segment p r = k))).flatten).map
            (fun r => r.user_id)) := by
    rw [List.map_flatten, List.map_map]
    rfl
  rw [hmf]
  have hfp := filter_groups_perm p univ
    ((sortKeys (univ.map (leaf_segment p))).dedup) (List.nodup_dedup _)
  have hall : univ.filter (fun r =>
      decide (leaf_segment p r ∈ (sortKeys (univ.map (leaf_segment p))).dedup))
      = univ :=
    List.filter_eq_self.mpr (fun r hr => decide_eq_true (mem_present_of_mem hr))
  rw [hall] at hfp
  exact hfp.map _

theorem aggregate_size_users (p : Percentiles) (univ : List Record) :
    ∀ q ∈ aggregate_segments p univ, q.2.size = q.2.users.length := by
  intro q hq
  rw [aggregate_segments] at hq
  rcases List.mem_append.mp hq with h | h
  · obtain ⟨k, -, rfl⟩ := List.mem_map.mp h
    simp [mkAggregate]
  · obtain ⟨k, -, rfl⟩ := List.mem_map.mp h
    simp [emptyAggregate]

theorem nodup_map_eq_of_eq {α β : Type} {f : α → β} {l : List α}
    (h : (l.map f).Nodup) {a b : α} (ha : a ∈ l) (hb : b ∈ l)
    (hfeq : f a = f b) : a = b := by
  induction l with
  | nil => simp at ha
  | cons x t ih =>
    simp only [List.map_cons, List.nodup_cons] at h
    rcases List.mem_cons.mp ha with rfl | ha' <;>
      rcases List.mem_cons.mp hb with rfl | hb'
    · rfl
    · exact absurd (hfeq ▸ List.mem_map_of_mem f hb') h.1
    · exact absurd (hfeq ▸ List.mem_map_of_mem f ha') h.1
    · exact ih h.2 ha' hb'

/-- C2: immediately after `aggregate_segments` on an assigned universe
(with distinct record ids), the dictionary's key list is a permutation of
the 12 enumerable leaf keys (the cross product of the three AOV tiers, two
engagement tiers and two profitability tiers, present even when empty),
the aggregate sizes sum to the universe size, and every record id appears
in exactly one aggregate's member list. -/
theorem aggregate_mece_c2 (p : Percentiles) (univ : List Record)
    (hids : (univ.map (fun r => r.user_id)).Nodup) :
    ((aggregate_segments p univ).map (fun q => q.1)).Perm all_leaf_keys ∧
    all_leaf_keys.length = 12 ∧
    totalSize (aggregate_segments p univ) = univ.length ∧
    ∀ r ∈ univ, ∃! q : Key × SegmentData,
      q ∈ aggregate_segments p univ ∧ r.user_id ∈ q.2.users := by
  refine ⟨aggregate_keys_perm p univ, all_leaf_keys_length, ?_, ?_⟩
  · have h1 : totalSize (aggregate_segments p univ)
        = (((aggregate_segments p univ).map (fun q => q.2.users)).flatten).length := by
      rw [List.length_flatten, totalSize, List.map_map]
      exact congrArg List.sum
        (List.map_congr_left (fun q hq => aggregate_size_users p univ q hq))
    rw [h1, (aggregate_users_perm p univ).length_eq, List.length_map]
  · intro r hr
    refine ⟨(leaf_segment p r,
      mkAggregate (univ.filter (fun s => leaf_segment p s = leaf_segment p r))),
      ⟨?_, ?_⟩, ?_⟩
    · rw [aggregate_segments]
      exact List.mem_append_left _
        (List.mem_map.mpr ⟨leaf_segment p r, mem_present_of_mem hr, rfl⟩)
    · exact List.mem_map.mpr ⟨r, List.mem_filter.mpr ⟨hr, by simp⟩, rfl⟩
    · rintro ⟨k', d'⟩ ⟨hq, huid⟩
      rw [aggregate_segments] at hq
      rcases List.mem_append.mp hq with h | h
      · obtain ⟨k, hkp, heq⟩ := List.mem_map.mp h
        obtain ⟨rfl, rfl⟩ := Prod.mk.injEq .. ▸ heq.symm
        obtain ⟨r', hr'f, hr'id⟩ := List.mem_map.mp huid
        obtain ⟨hr'univ, hr'leaf⟩ := List.mem_filter.mp hr'f
        have hr'r : r' = r := nodup_map_eq_of_eq hids hr'univ hr hr'id
        have hkleaf : leaf_segment p r = k' := by
          rw [← hr'r]
          exact of_decide_eq_true hr'leaf
        rw [← hkleaf]
      · obtain ⟨k, -, heq⟩ := List.mem_map.mp h
        obtain ⟨rfl, rfl⟩ := Prod.mk.injEq .. ▸ heq.symm
        simp [emptyAggregate] at huid

/-- Witness for C2: the MECE aggregation theorem applied to a concrete
one-record universe with distinct ids. -/
theorem aggregate_mece_c2_witness :
    ((([mkAovRecord 0 10] : List Record).map (fun r => r.user_id)).Nodup) ∧
    (((aggregate_segments (Percentiles.mk 0 0 0 0 0) [mkAovRecord 0 10]).map
        (fun q => q.1)).Perm all_leaf_keys ∧
      all_leaf_keys.length = 12 ∧
      totalSize (aggregate_segments (Percentiles.mk 0 0 0 0 0) [mkAovRecord 0 10])
        = ([mkAovRecord 0 10] : List Record).length ∧
      ∀ r ∈ ([mkAovRecord 0 10] : List Record), ∃! q : Key × SegmentData,
        q ∈ aggregate_segments (Percentiles.mk 0 0 0 0 0) [mkAovRecord 0 10] ∧
          r.user_id ∈ q.2.users) :=
  ⟨by decide,
   aggregate_mece_c2 (Percentiles.mk 0 0 0 0 0) [mkAovRecord 0 10] (by decide)⟩

/-! ### Split lemmas -/

theorem ceilDiv_mul_ge {n m : ℕ} (hm : 0 < m) : n ≤ ceilDiv n m * m := by
  cases n with
  | zero => simp
  | succ n' =>
    rw [ceilDiv]
    have he : n' + 1 + m - 1 = n' + m := by omega
    rw [he, Nat.add_div_right n' hm, Nat.succ_mul, Nat.mul_comm (n' / m) m]
    have h1 : n' % m < m := Nat.mod_lt n' hm
    have h2 := Nat.div_add_mod n' m
    generalize m * (n' / m) = X at h2 ⊢
    omega

theorem ceilDiv_pos {n m : ℕ} (hm : 0 < m) (hn : 0 < n) : 0 < ceilDiv n m := by
  rw [ceilDiv]
  exact (Nat.le_div_iff_mul_le hm).mpr (by omega)

theorem chunks_flatten_aux {α : Type} (m : ℕ) (hm : 0 < m) :
    ∀ (k : ℕ) (l : List α), l.length ≤ k * m →
      (((List.range k).map (fun i => (l.drop (i * m)).take m)).flatten) = l := by
  intro k
  induction k with
  | zero =>
    intro l hl
    simp at hl
    simp [hl]
  | succ k ih =>
    intro l hl
    rw [List.range_succ_eq_map]
    simp only [List.map_cons, List.flatten_cons, List.map_map]
    have hdrop0 : (l.drop (0 * m)).take m = l.take m := by simp
    have hshift : ((List.range k).map
        ((fun i => (l.drop (i * m)).take m) ∘ (fun i => i + 1)))
        = (List.range k).map (fun i => ((l.drop m).drop (i * m)).take m) := by
      apply List.map_congr_left
      intro i hi
      simp only [Function.comp]
      rw [List.drop_drop]
      congr 1
      ring
    rw [hdrop0, hshift, ih (l.drop m) (by
      have hkm : (k + 1) * m = k * m + m := by ring
      simp only [List.length_drop]
      omega)]
    exact List.take_append_drop m l

theorem chunks_flatten {α : Type} (m : ℕ) (hm : 0 < m) (l : List α) :
    (((List.range (ceilDiv l.length m)).map
      (fun i => (l.drop (i * m)).take m)).flatten) = l :=
  chunks_flatten_aux m hm (ceilDiv l.length m) l (ceilDiv_mul_ge hm)

theorem bucketIdx_le (cs : List ℚ) (s : ℚ) : bucketIdx cs s ≤ cs.length := by
  induction cs with
  | nil => simp [bucketIdx]
  | cons c ct ih =>
    rw [bucketIdx]
    split
    · simp
    · simp only [List.length_cons]
      omega

theorem sum_map_ite_zero (v : ℕ) (g : ℕ → ℕ) :
    ∀ k : ℕ, k ≤ v →
      ((List.range k).map (fun i => (if v = i then 1 else 0) + g i)).sum
        = ((List.range k).map g).sum := by
  intro k
  induction k with
  | zero => simp
  | succ k ih =>
    intro hk
    rw [List.range_succ]
    simp only [List.map_append, List.sum_append, List.map_cons, List.sum_cons,
      List.map_nil, List.sum_nil]
    rw [ih (by omega), if_neg (by omega)]
    omega

theorem sum_map_ite_one (v : ℕ) (g : ℕ → ℕ) :
    ∀ k : ℕ, v < k →
      ((List.range k).map (fun i => (if v = i then 1 else 0) + g i)).sum
        = 1 + ((List.range k).map g).sum := by
  intro k
  induction k with
  | zero => omega
  | succ k ih =>
    intro hk
    rw [List.range_succ]
    simp only [List.map_append, List.sum_append, List.map_cons, List.sum_cons,
      List.map_nil, List.sum_nil]
    by_cases hv : v = k
    · subst hv
      rw [sum_map_ite_zero v g v (le_refl v), if_pos rfl]
      omega
    · rw [ih (by omega), if_neg hv]
      omega

theorem bucket_partition_sum {α : Type} (f : α → ℕ) :
    ∀ (l : List α) (k : ℕ), (∀ x ∈ l, f x < k) →
      (((List.range k).map
        (fun i => (l.filter (fun x => decide (f x = i))).length)).sum) = l.length := by
  intro l
  induction l with
  | nil => intro k _; simp
  | cons x t ih =>
    intro k hk
    have hx : f x < k := hk x (List.mem_cons_self x t)
    have hmap : (List.range k).map
        (fun i => ((x :: t).filter (fun y => decide (f y = i))).length)
        = (List.range k).map
          (fun i => (if f x = i then 1 else 0)
            + (t.filter (fun y => decide (f y = i))).length) := by
      apply List.map_congr_left
      intro i hi
      rw [List.filter_cons]
      by_cases h : f x = i <;> simp [h] <;> omega
    rw [hmap, sum_map_ite_one (f x) _ k hx,
      ih k (fun y hy => hk y (List.mem_cons_of_mem x hy))]
    simp [Nat.add_comm]

theorem recompute_map_users (lookup : UserId → Record) (segs : SegDict) :
    (recompute_stats lookup segs).map (fun q => q.2.users)
      = segs.map (fun q => q.2.users) := by
  rw [recompute_stats, List.map_map]
  exact List.map_congr_left (fun p hp => by
    simp only [Function.comp]
    rw [recompOne_users])

theorem recompute_map_sizes (lookup : UserId → Record) (segs : SegDict) :
    (recompute_stats lookup segs).map (fun q => q.2.size)
      = segs.map (fun q => q.2.users.length) := by
  rw [recompute_stats, List.map_map]
  exact List.map_congr_left (fun p hp => by
    simp only [Function.comp]
    rw [recompOne_size])

theorem recompute_length (lookup : UserId → Record) (segs : SegDict) :
    (recompute_stats lookup segs).length = segs.length := by
  rw [recompute_stats, List.length_map]

theorem totalSize_recompute (lookup : UserId → Record) (segs : SegDict) :
    totalSize (recompute_stats lookup segs)
      = ((segs.map (fun q => q.2.users)).flatten).length := by
  rw [totalSize, recompute_map_sizes, List.length_flatten, List.map_map]
  rfl

theorem mem_users_recompute (lookup : UserId → Record) (segs : SegDict)
    (u : UserId) :
    (∃ q ∈ recompute_stats lookup segs, u ∈ q.2.users)
      ↔ u ∈ (segs.map (fun q => q.2.users)).flatten := by
  rw [List.mem_flatten]
  constructor
  · rintro ⟨q, hq, hu⟩
    refine ⟨q.2.users, ?_, hu⟩
    have : q.2.users ∈ (recompute_stats lookup segs).map (fun q => q.2.users) :=
      List.mem_map_of_mem _ hq
    rwa [recompute_map_users] at this
  · rintro ⟨l, hl, hu⟩
    rw [← recompute_map_users lookup segs] at hl
    obtain ⟨q, hq, rfl⟩ := List.mem_map.mp hl
    exact ⟨q, hq, hu⟩

theorem entries_map_users (l : List (List UserId)) (gk : ℕ → Key) :
    ((l.enum.map (fun ie => (gk ie.1, mkSplitData ie.2))).map
      (fun q : Key × SegmentData => q.2.users)) = l := by
  rw [List.map_map]
  have hc : ((fun q : Key × SegmentData => q.2.users)
      ∘ (fun ie : ℕ × List UserId => (gk ie.1, mkSplitData ie.2)))
      = Prod.snd := by
    funext ie
    rfl
  rw [hc, List.enum_map_snd]

theorem entries_users_le {l : List (List UserId)} {gk : ℕ → Key} {m : ℕ}
    (hl : ∀ c ∈ l, c.length ≤ m) :
    ∀ q ∈ l.enum.map (fun ie => (gk ie.1, mkSplitData ie.2)),
      q.2.users.length ≤ m := by
  intro q hq
  obtain ⟨ie, hie, rfl⟩ := List.mem_map.mp hq
  have h2 : ie.2 ∈ l := by
    have := List.mem_map_of_mem Prod.snd hie
    rwa [List.enum_map_snd] at this
  exact hl ie.2 h2

theorem buckets_facts (users : List UserId) (f : UserId → ℕ) (ns : ℕ)
    (hf : ∀ u ∈ users, f u < ns) (gk : ℕ → Key) :
    ((((List.range ns).map
        (fun bi => users.filter (fun u => decide (f u = bi)))).enum.map
        (fun ie => (gk ie.1, mkSplitData ie.2))).length = ns) ∧
    (((((List.range ns).map
        (fun bi => users.filter (fun u => decide (f u = bi)))).enum.map
        (fun ie => (gk ie.1, mkSplitData ie.2))).map
          (fun q : Key × SegmentData => q.2.users)).flatten).length
      = users.length ∧
    ∀ u : UserId,
      u ∈ ((((List.range ns).map
        (fun bi => users.filter (fun u => decide (f u = bi)))).enum.map
        (fun ie => (gk ie.1, mkSplitData ie.2))).map
          (fun q : Key × SegmentData => q.2.users)).flatten ↔ u ∈ users := by
  refine ⟨by simp, ?_, ?_⟩
  · rw [entries_map_users, List.length_flatten, List.map_map]
    have hcomp : (List.length ∘ fun bi => users.filter (fun u => decide (f u = bi)))
        = fun i => (users.filter (fun u => decide (f u = i))).length := by
      funext i
      rfl
    rw [hcomp]
    exact bucket_partition_sum f users ns hf
  · intro u
    rw [entries_map_users, List.mem_flatten]
    constructor
    · rintro ⟨l, hl, hu⟩
      obtain ⟨bi, -, rfl⟩ := List.mem_map.mp hl
      exact (List.mem_filter.mp hu).1
    · intro hu
      refine ⟨users.filter (fun v => decide (f v = f u)), ?_, ?_⟩
      · exact List.mem_map.mpr ⟨f u, List.mem_range.mpr (hf u hu), rfl⟩
      · exact List.mem_filter.mpr ⟨hu, by simp⟩

theorem splitOne_facts (lookup : UserId → Record) (m : ℕ) (k : Key)
    (d : SegmentData) (hsz : d.size = d.users.length) (hover : m < d.size)
    (hpos : 0 < m) :
    (splitOne lookup m k d).1.length = ceilDiv d.size m ∧
    (((splitOne lookup m k d).1.map
      (fun q => q.2.users)).flatten).length = d.users.length ∧
    (∀ u : UserId,
      u ∈ ((splitOne lookup m k d).1.map (fun q => q.2.users)).flatten
        ↔ u ∈ d.users) ∧
    ((d.users.map (fun u => (lookup u).sessions_last_30d)).dedup.length ≤ 1 →
      ∀ q ∈ (splitOne lookup m k d).1, q.2.users.length ≤ m) := by
  have hne : ¬ (d.size ≤ m ∨ d.size = 0) := by omega
  by_cases hdl :
      ((d.users.map (fun u => (lookup u).sessions_last_30d)).dedup.length ≤ 1)
  · simp only [splitOne, if_neg hne, if_pos hdl]
    refine ⟨?_, ?_, ?_, ?_⟩
    · simp [hsz]
    · rw [entries_map_users _
        (fun i => k ++ "_SPLIT_".toList ++ (toString (i + 1)).toList),
        chunks_flatten m hpos]
    · intro u
      rw [entries_map_users _
        (fun i => k ++ "_SPLIT_".toList ++ (toString (i + 1)).toList),
        chunks_flatten m hpos]
    · intro _
      refine @entries_users_le _
        (fun i => k ++ "_SPLIT_".toList ++ (toString (i + 1)).toList) m ?_
      intro c hc
      obtain ⟨i, -, rfl⟩ := List.mem_map.mp hc
      exact List.length_take_le m _
  · simp only [splitOne, if_neg hne, if_neg hdl]
    have hns : 0 < ceilDiv d.size m := ceilDiv_pos hpos (by omega)
    have hf : ∀ u ∈ d.users,
        bucketIdx ((List.range (ceilDiv d.size m - 1)).map
          (fun i => np_quantile (d.users.map
            (fun u => (lookup u).sessions_last_30d)) (i + 1) (ceilDiv d.size m)))
          (lookup u).sessions_last_30d < ceilDiv d.size m := by
      intro u hu
      have h1 := bucketIdx_le ((List.range (ceilDiv d.size m - 1)).map
        (fun i => np_quantile (d.users.map
          (fun u => (lookup u).sessions_last_30d)) (i + 1) (ceilDiv d.size m)))
        (lookup u).sessions_last_30d
      simp only [List.length_map, List.length_range] at h1
      omega
    obtain ⟨hb1, hb2, hb3⟩ := buckets_facts d.users
      (fun u => bucketIdx ((List.range (ceilDiv d.size m - 1)).map
        (fun i => np_quantile (d.users.map
          (fun u => (lookup u).sessions_last_30d)) (i + 1) (ceilDiv d.size m)))
        (lookup u).sessions_last_30d)
      (ceilDiv d.size m) hf
      (fun i => k ++ "_SPLIT_Q".toList ++ (toString (i + 1)).toList)
    exact ⟨hb1, hb2, hb3, fun h => absurd h hdl⟩

/-- C6 amended: splitting one oversized segment (`max_size < size`,
`size` consistent with the member list) produces exactly
`ceil(size / max_size)` sub-segments in BOTH paths; their sizes sum to the
original size and the union of their member sets is exactly the original
member set; but only the positional-chunking path (taken when the sessions
attribute is constant) guarantees every sub-segment is at most `max_size`
— the quantile path does not (see the counterexample). -/
theorem split_roundtrip_c6 (lookup : UserId → Record) (max_size : ℕ)
    (k : Key) (d : SegmentData) (hsz : d.size = d.users.length)
    (hover : max_size < d.size) (hpos : 0 < max_size) :
    ((split_large_segments lookup max_size [(k, d)]).1).length
      = ceilDiv d.size max_size ∧
    totalSize ((split_large_segments lookup max_size [(k, d)]).1) = d.size ∧
    (∀ u : UserId,
      (∃ q ∈ (split_large_segments lookup max_size [(k, d)]).1, u ∈ q.2.users)
        ↔ u ∈ d.users) ∧
    ((d.users.map (fun u => (lookup u).sessions_last_30d)).dedup.length ≤ 1 →
      ∀ q ∈ (split_large_segments lookup max_size [(k, d)]).1,
        q.2.size ≤ max_size) := by
  obtain ⟨hE1, hE2, hE3, hE4⟩ := splitOne_facts lookup max_size k d hsz hover hpos
  have hout : (split_large_segments lookup max_size [(k, d)]).1
      = recompute_stats lookup (splitOne lookup max_size k d).1 := by
    simp [split_large_segments]
  refine ⟨?_, ?_, ?_, ?_⟩
  · rw [hout, recompute_length, hE1]
  · rw [hout, totalSize_recompute, hE2, hsz]
  · intro u
    rw [hout, mem_users_recompute, hE3]
  · intro hdl q hq
    rw [hout, recompute_stats] at hq
    obtain ⟨q0, hq0, rfl⟩ := List.mem_map.mp hq
    rw [recompOne_size]
    exact hE4 hdl q0 hq0

/-- Witness for C6's amended split theorem: a 3-member segment with
`max_size = 2` and constant sessions splits into `ceil(3/2) = 2` chunks. -/
theorem split_roundtrip_c6_witness :
    (({ users := [0, 1, 2], size := 3, conversion_potential := 0,
        profitability := 0, avg_order_value := 0 } : SegmentData).size
      = ([0, 1, 2] : List UserId).length) ∧ 2 < 3 ∧ 0 < 2 ∧
    ((split_large_segments (fun _ => defaultRecord) 2
        [("Seg".toList,
          { users := [0, 1, 2], size := 3, conversion_potential := 0,
            profitability := 0, avg_order_value := 0 })]).1).length
      = ceilDiv 3 2 :=
  ⟨by decide, by decide, by decide,
   (split_roundtrip_c6 (fun _ => defaultRecord) 2 ("Seg".toList)
     { users := [0, 1, 2], size := 3, conversion_potential := 0,
       profitability := 0, avg_order_value := 0 }
     (by decide) (by decide) (by decide)).1⟩

/-! ### C6: symbolic evaluation of the quantile split path -/

-- ======== helper lemmas ========

theorem insertQ_of_le (a : ℚ) (l : List ℚ) (h : ∀ b ∈ l, a ≤ b) :
    insertQ a l = a :: l := by
  cases l with
  | nil => rfl
  | cons b bs =>
    rw [insertQ, if_pos (h b (List.mem_cons_self b bs))]

theorem sortQ_of_sorted (l : List ℚ) (h : l.Pairwise (· ≤ ·)) :
    sortQ l = l := by
  induction l with
  | nil => rfl
  | cons a as ih =>
    rw [List.pairwise_cons] at h
    rw [sortQ, ih h.2, insertQ_of_le a as h.1]

theorem pairwise_le_replicate (n : ℕ) (a : ℚ) :
    (List.replicate n a).Pairwise (· ≤ ·) := by
  induction n with
  | zero => exact List.Pairwise.nil
  | succ n ih =>
    rw [List.replicate_succ, List.pairwise_cons]
    exact ⟨fun b hb => le_of_eq (List.eq_of_mem_replicate hb).symm, ih⟩

theorem nthQ_append_lt (l t : List ℚ) (i : ℕ) (h : i < l.length) :
    nthQ (l ++ t) i = nthQ l i := by
  induction l generalizing i with
  | nil => simp at h
  | cons a as ih =>
    cases i with
    | zero => rfl
    | succ j =>
      rw [List.cons_append, nthQ, nthQ]
      exact ih j (by simpa using h)

theorem nthQ_append_skip (l t : List ℚ) (j : ℕ) :
    nthQ (l ++ t) (l.length + j) = nthQ t j := by
  induction l with
  | nil => simp [nthQ]
  | cons a as ih =>
    rw [List.cons_append, List.length_cons]
    have : as.length + 1 + j = (as.length + j) + 1 := by omega
    rw [this, nthQ]
    exact ih

theorem nthQ_replicate (n : ℕ) (a : ℚ) (i : ℕ) (h : i < n) :
    nthQ (List.replicate n a) i = a := by
  induction n generalizing i with
  | zero => omega
  | succ m ih =>
    rw [List.replicate_succ]
    cases i with
    | zero => rfl
    | succ j =>
      rw [nthQ]
      exact ih j (by omega)

theorem two_le_dedup (l : List ℚ) (a b : ℚ) (ha : a ∈ l) (hb : b ∈ l)
    (hab : a ≠ b) : 2 ≤ l.dedup.length := by
  have hsub : [a, b] ⊆ l.dedup := by
    intro x hx
    rw [List.mem_dedup]
    rcases List.mem_cons.mp hx with rfl | hx2
    · exact ha
    · rw [List.mem_singleton.mp hx2]
      exact hb
  have hnd : ([a, b] : List ℚ).Nodup := by simp [hab]
  simpa using (hnd.subperm hsub).length_le

-- ======== the concrete C6 values ========

theorem c6_map_eq :
    (List.range 45000).map (fun u => (c6_lookup u).sessions_last_30d)
      = List.replicate 30000 1 ++ List.replicate 15000 2 := by
  have h1 : (List.range 30000).map (fun u => (c6_lookup u).sessions_last_30d)
      = List.replicate 30000 (1:ℚ) := by
    have hc : ∀ u ∈ List.range 30000,
        (c6_lookup u).sessions_last_30d = (fun _ => (1:ℚ)) u := by
      intro u hu
      rw [List.mem_range] at hu
      simp [c6_lookup, hu]
    rw [List.map_congr_left hc, List.map_const', List.length_range]
  have h2 : ((List.range 15000).map (fun i => 30000 + i)).map
        (fun u => (c6_lookup u).sessions_last_30d)
      = List.replicate 15000 (2:ℚ) := by
    rw [List.map_map]
    have hc : ∀ i ∈ List.range 15000,
        ((fun u => (c6_lookup u).sessions_last_30d) ∘ (fun i => 30000 + i)) i
          = (fun _ => (2:ℚ)) i := by
      intro i _
      simp [Function.comp, c6_lookup]
    rw [List.map_congr_left hc, List.map_const', List.length_range]
  rw [show (45000:ℕ) = 30000 + 15000 from by norm_num,
      List.range_add 30000 15000, List.map_append, h1, h2]

theorem c6_sorted :
    sortQ (List.replicate 30000 1 ++ List.replicate 15000 2)
      = List.replicate 30000 1 ++ List.replicate 15000 2 := by
  apply sortQ_of_sorted
  rw [List.pairwise_append]
  refine ⟨pairwise_le_replicate _ _, pairwise_le_replicate _ _, ?_⟩
  intro x hx y hy
  rw [List.eq_of_mem_replicate hx, List.eq_of_mem_replicate hy]
  norm_num

theorem nthQ_repl2_lo (n1 n2 : ℕ) (a b : ℚ) (i : ℕ) (h : i < n1) :
    nthQ (List.replicate n1 a ++ List.replicate n2 b) i = a := by
  rw [nthQ_append_lt _ _ i (by rw [List.length_replicate]; exact h),
      nthQ_replicate n1 a i h]

theorem nthQ_repl2_hi (n1 n2 : ℕ) (a b : ℚ) (i : ℕ) (h1 : n1 ≤ i)
    (h2 : i < n1 + n2) : nthQ (List.replicate n1 a ++ List.replicate n2 b) i = b := by
  obtain ⟨j, rfl⟩ : ∃ j, i = n1 + j := ⟨i - n1, by omega⟩
  have hs := nthQ_append_skip (List.replicate n1 a) (List.replicate n2 b) j
  rw [List.length_replicate] at hs
  rw [hs, nthQ_replicate n2 b j (by omega)]

theorem c6_len : (List.replicate 30000 (1:ℚ) ++ List.replicate 15000 2).length
    = 45000 := by
  rw [List.length_append, List.length_replicate, List.length_replicate]

theorem c6_q1 :
    np_quantile (List.replicate 30000 1 ++ List.replicate 15000 2) 1 3 = 1 := by
  rw [np_quantile, c6_sorted, c6_len]
  norm_num
  rw [nthQ_repl2_lo 30000 15000 1 2 14999 (by norm_num),
      nthQ_repl2_lo 30000 15000 1 2 15000 (by norm_num)]
  norm_num

theorem c6_q2 :
    np_quantile (List.replicate 30000 1 ++ List.replicate 15000 2) 2 3 = 4/3 := by
  rw [np_quantile, c6_sorted, c6_len]
  norm_num
  rw [nthQ_repl2_lo 30000 15000 1 2 29999 (by norm_num),
      nthQ_repl2_hi 30000 15000 1 2 30000 (by norm_num) (by norm_num)]
  norm_num

theorem c6_repl_dedup :
    ¬ ((List.replicate 30000 (1:ℚ) ++ List.replicate 15000 2).dedup.length ≤ 1) := by
  have h1 : (1:ℚ) ∈ List.replicate 30000 (1:ℚ) ++ List.replicate 15000 2 :=
    List.mem_append_left _ (List.mem_replicate.mpr ⟨by norm_num, rfl⟩)
  have h2 : (2:ℚ) ∈ List.replicate 30000 (1:ℚ) ++ List.replicate 15000 2 :=
    List.mem_append_right _ (List.mem_replicate.mpr ⟨by norm_num, rfl⟩)
  have := two_le_dedup _ 1 2 h1 h2 (by norm_num)
  omega

theorem c6_filter_b0 :
    (List.range 45000).filter
      (fun u => bucketIdx [1, 4/3] ((c6_lookup u).sessions_last_30d) = 0)
      = List.range 30000 := by
  rw [show (45000:ℕ) = 30000 + 15000 from by norm_num,
      List.range_add 30000 15000, List.filter_append]
  have ha : (List.range 30000).filter
      (fun u => bucketIdx [1, 4/3] ((c6_lookup u).sessions_last_30d) = 0)
      = List.range 30000 := by
    apply List.filter_eq_self.mpr
    intro u hu
    rw [List.mem_range] at hu
    have hs : (c6_lookup u).sessions_last_30d = 1 := by simp [c6_lookup, hu]
    simp only [hs, decide_eq_true_eq]
    norm_num [bucketIdx]
  have hb : ((List.range 15000).map (fun i => 30000 + i)).filter
      (fun u => bucketIdx [1, 4/3] ((c6_lookup u).sessions_last_30d) = 0)
      = [] := by
    apply List.filter_eq_nil_iff.mpr
    intro u hu
    obtain ⟨i, _, rfl⟩ := List.mem_map.mp hu
    have hs : (c6_lookup (30000 + i)).sessions_last_30d = 2 := by
      simp [c6_lookup]
    simp only [hs, decide_eq_true_eq]
    norm_num [bucketIdx]
  rw [ha, hb, List.append_nil]

theorem c6_filter_b1 :
    (List.range 45000).filter
      (fun u => bucketIdx [1, 4/3] ((c6_lookup u).sessions_last_30d) = 1)
      = [] := by
  apply List.filter_eq_nil_iff.mpr
  intro u _
  by_cases hu : u < 30000
  · have hs : (c6_lookup u).sessions_last_30d = 1 := by simp [c6_lookup, hu]
    simp only [hs, decide_eq_true_eq]
    norm_num [bucketIdx]
  · have hs : (c6_lookup u).sessions_last_30d = 2 := by simp [c6_lookup, hu]
    simp only [hs, decide_eq_true_eq]
    norm_num [bucketIdx]

theorem c6_filter_b2 :
    (List.range 45000).filter
      (fun u => bucketIdx [1, 4/3] ((c6_lookup u).sessions_last_30d) = 2)
      = (List.range 15000).map (fun i => 30000 + i) := by
  rw [show (45000:ℕ) = 30000 + 15000 from by norm_num,
      List.range_add 30000 15000, List.filter_append]
  have ha : (List.range 30000).filter
      (fun u => bucketIdx [1, 4/3] ((c6_lookup u).sessions_last_30d) = 2)
      = [] := by
    apply List.filter_eq_nil_iff.mpr
    intro u hu
    rw [List.mem_range] at hu
    have hs : (c6_lookup u).sessions_last_30d = 1 := by simp [c6_lookup, hu]
    simp only [hs, decide_eq_true_eq]
    norm_num [bucketIdx]
  have hb : ((List.range 15000).map (fun i => 30000 + i)).filter
      (fun u => bucketIdx [1, 4/3] ((c6_lookup u).sessions_last_30d) = 2)
      = (List.range 15000).map (fun i => 30000 + i) := by
    apply List.filter_eq_self.mpr
    intro u hu
    obtain ⟨i, _, rfl⟩ := List.mem_map.mp hu
    have hs : (c6_lookup (30000 + i)).sessions_last_30d = 2 := by
      simp [c6_lookup]
    simp only [hs, decide_eq_true_eq]
    norm_num [bucketIdx]
  rw [ha, hb, List.nil_append]

theorem splitOne_quantile (lookup : ℕ → Record) (m : ℕ) (k : Key)
    (d : SegmentData) (h1 : ¬ (d.size ≤ m ∨ d.size = 0))
    (h2 : ¬ ((d.users.map (fun u => (lookup u).sessions_last_30d)).dedup.length ≤ 1)) :
    (splitOne lookup m k d).1 =
      ((List.range (ceilDiv d.size m)).map (fun bi =>
        d.users.filter (fun u =>
          bucketIdx ((List.range (ceilDiv d.size m - 1)).map
            (fun i => np_quantile
              (d.users.map (fun u => (lookup u).sessions_last_30d))
              (i + 1) (ceilDiv d.size m)))
          ((lookup u).sessions_last_30d) = bi))).enum.map
        (fun ie => (k ++ "_SPLIT_Q".toList ++ (toString (ie.1 + 1)).toList,
          mkSplitData ie.2)) := by
  rw [splitOne, if_neg h1]
  simp only []
  rw [if_neg h2]

theorem c6_cut :
    (List.range 2).map (fun i =>
      np_quantile (List.replicate 30000 1 ++ List.replicate 15000 2) (i + 1) 3)
      = [1, 4/3] := by
  rw [show List.range 2 = [0, 1] from by decide]
  simp only [List.map_cons, List.map_nil]
  have e1 : np_quantile (List.replicate 30000 1 ++ List.replicate 15000 2)
      (0 + 1) 3 = 1 := c6_q1
  have e2 : np_quantile (List.replicate 30000 1 ++ List.replicate 15000 2)
      (1 + 1) 3 = 4/3 := c6_q2
  rw [e1, e2]

theorem c6_splitOne_sizes :
    ((splitOne c6_lookup 20000 ("BigSegment".toList) c6_data).1.map
      (fun q => q.2.users.length)) = [30000, 0, 15000] := by
  have hu : c6_data.users = List.range 45000 := by simp only [c6_data]
  have hsz : c6_data.size = 45000 := by simp only [c6_data]
  have h1 : ¬ (c6_data.size ≤ 20000 ∨ c6_data.size = 0) := by
    rw [hsz]
    norm_num
  have h2 : ¬ ((c6_data.users.map
      (fun u => (c6_lookup u).sessions_last_30d)).dedup.length ≤ 1) := by
    rw [hu, c6_map_eq]
    exact c6_repl_dedup
  rw [splitOne_quantile c6_lookup 20000 _ c6_data h1 h2]
  rw [hu, hsz, c6_map_eq]
  rw [show ceilDiv 45000 20000 = 3 from by decide]
  rw [show (3:ℕ) - 1 = 2 from rfl]
  rw [c6_cut]
  rw [show List.range 3 = [0, 1, 2] from by decide]
  simp only [List.map_cons, List.map_nil]
  rw [c6_filter_b0, c6_filter_b1, c6_filter_b2]
  simp only [List.enum, List.enumFrom, List.map_cons, List.map_nil, mkSplitData,
    List.length_map, List.length_range, List.length_nil]

/-- C6 counterexample: on a 45000-member segment whose sessions attribute
is 1 for 30000 members and 2 for the rest, with `max_size = 20000`, the
quantile path produces sub-segment sizes `[30000, 0, 15000]` — one bucket
holds 30000 > 20000 members, so the split does NOT guarantee every
resulting segment is at most `max_size`. -/
theorem split_oversize_c6_counterexample :
    c6_out.map (fun q => q.2.size) = [30000, 0, 15000] ∧
    ¬ (∀ q ∈ c6_out, q.2.size ≤ 20000) := by
  have hout : c6_out = recompute_stats c6_lookup
      (splitOne c6_lookup 20000 ("BigSegment".toList) c6_data).1 := by
    simp [c6_out, split_large_segments]
  have hmap : c6_out.map (fun q => q.2.size) = [30000, 0, 15000] := by
    rw [hout, recompute_map_sizes, c6_splitOne_sizes]
  refine ⟨hmap, fun hall => ?_⟩
  have h30 : (30000:ℕ) ∈ c6_out.map (fun q => q.2.size) := by
    rw [hmap]
    exact List.mem_cons_self _ _
  obtain ⟨q, hq, hqs⟩ := List.mem_map.mp h30
  have := hall q hq
  omega

/-! ### C5: score bounds through the pipeline -/

theorem clamp01_bounds (x : ℚ) : 0 ≤ clamp01 x ∧ clamp01 x ≤ 1 := by
  rw [clamp01]
  refine ⟨le_max_left 0 _, ?_⟩
  rw [max_le_iff]
  exact ⟨by norm_num, min_le_left 1 x⟩

theorem meanQ_bounds {l : List ℚ} (hne : l ≠ [])
    (hb : ∀ x ∈ l, 0 ≤ x ∧ x ≤ 1) : 0 ≤ meanQ l ∧ meanQ l ≤ 1 := by
  have hlen : 0 < (l.length : ℚ) := by
    have := List.length_pos.mpr hne
    exact_mod_cast this
  have hsum0 : 0 ≤ l.sum := List.sum_nonneg (fun x hx => (hb x hx).1)
  have hsum1 : l.sum ≤ (l.length : ℚ) := by
    have h := List.sum_le_card_nsmul l 1 (fun x hx => (hb x hx).2)
    rwa [nsmul_eq_mul, mul_one] at h
  rw [meanQ]
  refine ⟨div_nonneg hsum0 (le_of_lt hlen), ?_⟩
  rw [div_le_one hlen]
  exact hsum1

theorem recOk_cp {r : Record} (h : RecOk r) :
    0 ≤ r.conversion_potential ∧ r.conversion_potential ≤ 1 := by
  obtain ⟨he0, he1, _, _, hd0, _⟩ := h
  have hr0 : 0 ≤ r.recency_factor := le_max_left 0 _
  have hr1 : r.recency_factor ≤ 1 := by
    rw [Record.recency_factor, max_le_iff]
    refine ⟨by norm_num, ?_⟩
    rw [div_le_one (by norm_num : (0:ℚ) < 7)]
    have : (0:ℚ) ≤ (r.days_since_abandon : ℚ) := by exact_mod_cast hd0
    linarith
  rw [Record.conversion_potential]
  refine ⟨mul_nonneg he0 hr0, ?_⟩
  have := mul_le_mul he1 hr1 hr0 (by norm_num : (0:ℚ) ≤ 1)
  simpa using this

theorem lookupU_recOk {univ : List Record} (h : ∀ r ∈ univ, RecOk r)
    (u : UserId) : RecOk (lookupU univ u) := by
  rw [lookupU]
  cases hf : univ.find? (fun r => r.user_id = u) with
  | none =>
    simp only [Option.getD_none]
    norm_num [RecOk, defaultRecord]
  | some r =>
    simp only [Option.getD_some]
    exact h r (List.mem_of_find?_eq_some hf)

theorem recompute_StatsOk (lookup : UserId → Record)
    (hl : ∀ u : UserId, 0 ≤ (lookup u).conversion_potential ∧
      (lookup u).conversion_potential ≤ 1 ∧
      0 ≤ (lookup u).profitability_score ∧ (lookup u).profitability_score ≤ 1)
    (segs : SegDict) : StatsOk (recompute_stats lookup segs) := by
  intro q hq
  rw [recompute_stats] at hq
  obtain ⟨p, hp, rfl⟩ := List.mem_map.mp hq
  rw [recompOne]
  by_cases h : p.2.users = []
  · rw [if_pos h]
    norm_num
  · rw [if_neg h]
    simp only []
    have hne1 : p.2.users.map (fun u => (lookup u).conversion_potential) ≠ [] := by
      intro h0
      rw [List.map_eq_nil_iff] at h0
      exact h h0
    have hne2 : p.2.users.map (fun u => (lookup u).profitability_score) ≠ [] := by
      intro h0
      rw [List.map_eq_nil_iff] at h0
      exact h h0
    have h1 := meanQ_bounds hne1 (by
      intro x hx
      obtain ⟨u, _, rfl⟩ := List.mem_map.mp hx
      exact ⟨(hl u).1, (hl u).2.1⟩)
    have h2 := meanQ_bounds hne2 (by
      intro x hx
      obtain ⟨u, _, rfl⟩ := List.mem_map.mp hx
      exact ⟨(hl u).2.2.1, (hl u).2.2.2⟩)
    exact ⟨h1.1, h1.2, h2.1, h2.2⟩

theorem mkAggregate_statsOk {group : List Record}
    (h : ∀ r ∈ group, RecOk r) :
    0 ≤ (mkAggregate group).conversion_potential ∧
    (mkAggregate group).conversion_potential ≤ 1 ∧
    0 ≤ (mkAggregate group).profitability ∧
    (mkAggregate group).profitability ≤ 1 := by
  rw [mkAggregate]
  simp only []
  by_cases hlen : 0 < group.length
  · rw [if_pos hlen, if_pos hlen]
    have hne : group ≠ [] := by
      intro h0
      rw [h0] at hlen
      simp at hlen
    have hne1 : group.map Record.conversion_potential ≠ [] := by
      intro h0
      rw [List.map_eq_nil_iff] at h0
      exact hne h0
    have hne2 : group.map (fun r => r.profitability_score) ≠ [] := by
      intro h0
      rw [List.map_eq_nil_iff] at h0
      exact hne h0
    have h1 := meanQ_bounds hne1 (by
      intro x hx
      obtain ⟨r, hr, rfl⟩ := List.mem_map.mp hx
      exact recOk_cp (h r hr))
    have h2 := meanQ_bounds hne2 (by
      intro x hx
      obtain ⟨r, hr, rfl⟩ := List.mem_map.mp hx
      exact ⟨(h r hr).2.2.1, (h r hr).2.2.2.1⟩)
    exact ⟨h1.1, h1.2, h2.1, h2.2⟩
  · rw [if_neg hlen, if_neg hlen]
    norm_num

theorem aggregate_StatsOk (p : Percentiles) (univ : List Record)
    (h : ∀ r ∈ univ, RecOk r) :
    StatsOk (aggregate_segments p univ) := by
  intro q hq
  rw [aggregate_segments] at hq
  rcases List.mem_append.mp hq with hq1 | hq2
  · obtain ⟨k, _, rfl⟩ := List.mem_map.mp hq1
    exact mkAggregate_statsOk (fun r hr => h r (List.mem_of_mem_filter hr))
  · obtain ⟨k, _, rfl⟩ := List.mem_map.mp hq2
    norm_num [emptyAggregate]

theorem mergeStep_shape {lookup : UserId → Record} {min_size : ℕ}
    {segs segs' : SegDict} {e : LogEntry}
    (h : mergeStep lookup min_size segs = some (segs', e)) :
    ∃ X, segs' = recompute_stats lookup X := by
  rw [mergeStep] at h
  cases hf : (smallKeys min_size segs).find?
      (fun k => decide (3 ≤ (splitU k).length)) with
  | none =>
    rw [hf] at h
    exact absurd h (by simp)
  | some k =>
    rw [hf] at h
    simp only [Option.some.injEq, Prod.mk.injEq] at h
    exact ⟨(mergeMove segs k).1, h.1.symm⟩

theorem mergeLoop_StatsOk {lookup : UserId → Record} {min_size : ℕ}
    (hl : ∀ u : UserId, 0 ≤ (lookup u).conversion_potential ∧
      (lookup u).conversion_potential ≤ 1 ∧
      0 ≤ (lookup u).profitability_score ∧ (lookup u).profitability_score ≤ 1) :
    ∀ (fuel : ℕ) (segs : SegDict) (log : List LogEntry)
      (out : SegDict × List LogEntry),
      mergeLoop lookup min_size fuel segs log = some out →
      StatsOk segs → StatsOk out.1 := by
  intro fuel
  induction fuel with
  | zero =>
    intro segs log out h _
    rw [mergeLoop] at h
    cases h
  | succ n ih =>
    intro segs log out h hs
    rw [mergeLoop] at h
    cases hstep : mergeStep lookup min_size segs with
    | none =>
      rw [hstep] at h
      simp only [Option.some.injEq] at h
      rw [← h]
      exact hs
    | some pr =>
      obtain ⟨s', e'⟩ := pr
      rw [hstep] at h
      obtain ⟨X, hX⟩ := mergeStep_shape hstep
      refine ih s' (log ++ [e']) out h ?_
      rw [hX]
      exact recompute_StatsOk lookup hl X

theorem foldl_min_le_init (t : List ℕ) (acc : ℕ) : t.foldl min acc ≤ acc := by
  induction t generalizing acc with
  | nil => exact le_refl acc
  | cons b bs ih => exact le_trans (ih (min acc b)) (min_le_left acc b)

theorem foldl_min_le_mem {t : List ℕ} {x : ℕ} (hx : x ∈ t) (acc : ℕ) :
    t.foldl min acc ≤ x := by
  induction t generalizing acc with
  | nil => cases hx
  | cons b bs ih =>
    rcases List.mem_cons.mp hx with rfl | hxs
    · exact le_trans (foldl_min_le_init bs (min acc x)) (min_le_right acc x)
    · exact ih hxs (min acc b)

theorem le_foldl_max_init (t : List ℕ) (acc : ℕ) : acc ≤ t.foldl max acc := by
  induction t generalizing acc with
  | nil => exact le_refl acc
  | cons b bs ih => exact le_trans (le_max_left acc b) (ih (max acc b))

theorem le_foldl_max_mem {t : List ℕ} {x : ℕ} (hx : x ∈ t) (acc : ℕ) :
    x ≤ t.foldl max acc := by
  induction t generalizing acc with
  | nil => cases hx
  | cons b bs ih =>
    rcases List.mem_cons.mp hx with rfl | hxs
    · exact le_trans (le_max_right acc x) (le_foldl_max_init bs (max acc x))
    · exact ih hxs (max acc b)

theorem pyMinN_le {l : List ℕ} {x : ℕ} (hx : x ∈ l) : pyMinN l ≤ x := by
  cases l with
  | nil => cases hx
  | cons a t =>
    rw [pyMinN]
    rcases List.mem_cons.mp hx with rfl | hxs
    · exact foldl_min_le_init t x
    · exact foldl_min_le_mem hxs a

theorem le_pyMaxN {l : List ℕ} {x : ℕ} (hx : x ∈ l) : x ≤ pyMaxN l := by
  cases l with
  | nil => cases hx
  | cons a t =>
    rw [pyMaxN]
    rcases List.mem_cons.mp hx with rfl | hxs
    · exact le_foldl_max_init t x
    · exact le_foldl_max_mem hxs a

theorem scoreOne_bounded (amin amax : ℚ) (smin smax : ℕ)
    (p : Key × SegmentData)
    (hcp : 0 ≤ p.2.conversion_potential ∧ p.2.conversion_potential ≤ 1)
    (hpr : 0 ≤ p.2.profitability ∧ p.2.profitability ≤ 1)
    (hsz : ¬ smax = smin → smin ≤ p.2.size ∧ p.2.size ≤ smax) :
    ScoresBounded (scoreOne amin amax smin smax p).2 := by
  have hcp' : 0 ≤ (if 0 < p.2.size then p.2.conversion_potential else 0) ∧
      (if 0 < p.2.size then p.2.conversion_potential else 0) ≤ 1 := by
    split_ifs
    · exact hcp
    · norm_num
  have hpr' : 0 ≤ (if 0 < p.2.size then p.2.profitability else 0) ∧
      (if 0 < p.2.size then p.2.profitability else 0) ≤ 1 := by
    split_ifs
    · exact hpr
    · norm_num
  have hss : 0 ≤ (if ¬ smax = smin then
        ((p.2.size : ℚ) - (smin : ℚ)) / ((smax : ℚ) - (smin : ℚ)) else 1/2) ∧
      (if ¬ smax = smin then
        ((p.2.size : ℚ) - (smin : ℚ)) / ((smax : ℚ) - (smin : ℚ)) else 1/2) ≤ 1 := by
    split_ifs with h
    · norm_num
    · obtain ⟨h1, h2⟩ := hsz h
      have hlt : smin < smax := by omega
      have hd : (0:ℚ) < (smax : ℚ) - (smin : ℚ) := by
        have : (smin : ℚ) < (smax : ℚ) := by exact_mod_cast hlt
        linarith
      constructor
      · apply div_nonneg _ (le_of_lt hd)
        have : (smin : ℚ) ≤ (p.2.size : ℚ) := by exact_mod_cast h1
        linarith
      · rw [div_le_one hd]
        have : ((p.2.size : ℕ) : ℚ) ≤ (smax : ℚ) := by exact_mod_cast h2
        linarith
  rw [scoreOne]
  simp only []
  rw [ScoresBounded]
  simp only []
  exact ⟨hcp'.1, hcp'.2, hpr'.1, hpr'.2, hss.1, hss.2,
    (clamp01_bounds _).1, (clamp01_bounds _).2, (clamp01_bounds _).1,
    (clamp01_bounds _).2, (clamp01_bounds _).1, (clamp01_bounds _).2⟩

theorem compute_final_scores_bounded {segs : SegDict} {univ : List Record}
    (hst : StatsOk segs) :
    ∀ q ∈ compute_final_scores segs univ, ScoresBounded q.2 := by
  intro q hq
  rw [compute_final_scores] at hq
  obtain ⟨p, hp, rfl⟩ := List.mem_map.mp hq
  have hpmem : p ∈ segs := mem_sortPairs.mp hp
  have hsne : ¬ segs.map (fun p => p.2.size) = [] := by
    intro h0
    rw [List.map_eq_nil_iff] at h0
    rw [h0] at hpmem
    cases hpmem
  rw [if_neg hsne, if_neg hsne]
  refine scoreOne_bounded _ _ _ _ p
    ⟨(hst p hpmem).1, (hst p hpmem).2.1⟩
    ⟨(hst p hpmem).2.2.1, (hst p hpmem).2.2.2⟩ ?_
  intro _
  exact ⟨pyMinN_le (List.mem_map_of_mem _ hpmem),
    le_pyMaxN (List.mem_map_of_mem _ hpmem)⟩

theorem pipeline_StatsOk (univ : List Record) (min_size max_size : ℕ)
    (flag : Bool) (hrec : ∀ r ∈ univ, RecOk r) :
    StatsOk (pipeline_segments univ min_size max_size flag) := by
  have hl : ∀ u : UserId, 0 ≤ (lookupU univ u).conversion_potential ∧
      (lookupU univ u).conversion_potential ≤ 1 ∧
      0 ≤ (lookupU univ u).profitability_score ∧
      (lookupU univ u).profitability_score ≤ 1 := by
    intro u
    have h := lookupU_recOk hrec u
    have hcp := recOk_cp h
    exact ⟨hcp.1, hcp.2, h.2.2.1, h.2.2.2.1⟩
  have hagg : StatsOk (aggregate_segments (compute_percentiles univ) univ) :=
    aggregate_StatsOk _ _ hrec
  have hmerge : StatsOk (merge_small_segments (lookupU univ) min_size
      (aggregate_segments (compute_percentiles univ) univ)).1 := by
    rw [merge_small_segments]
    cases hml : mergeLoop (lookupU univ) min_size
        (potSum (aggregate_segments (compute_percentiles univ) univ) + 1)
        (aggregate_segments (compute_percentiles univ) univ) [] with
    | none =>
      simp only [hml, Option.getD_none]
      exact hagg
    | some out =>
      simp only [hml, Option.getD_some]
      exact mergeLoop_StatsOk hl _ _ _ _ hml hagg
  rw [pipeline_segments]
  cases flag with
  | false =>
    rw [if_neg (by simp)]
    exact hmerge
  | true =>
    rw [if_pos rfl, split_large_segments]
    exact recompute_StatsOk _ hl _

/-- C5: on any universe whose records have engagement and profitability in
[0,1] and days-since-abandon in [0,6], every segment scored by
`compute_final_scores` on the pipeline output (aggregate, merge, optional
split, for any size bounds) has all five component scores and the overall
score in [0,1] — conversion potential, profitability and size score are
bounded by the pipeline invariants even though they are never clamped. -/
theorem score_bounds_c5 (univ : List Record) (min_size max_size : ℕ)
    (flag : Bool) (hrec : ∀ r ∈ univ, RecOk r) :
    ∀ q ∈ compute_final_scores
      (pipeline_segments univ min_size max_size flag) univ,
      ScoresBounded q.2 :=
  compute_final_scores_bounded
    (pipeline_StatsOk univ min_size max_size flag hrec)

/-- Witness for C5 at a concrete input: a one-record universe scored with
the program's size bounds (500, 20000) and no splitting. -/
theorem score_bounds_c5_witness :
    (∀ r ∈ [mkAovRecord 0 10], RecOk r) ∧
    ∀ q ∈ compute_final_scores
      (pipeline_segments [mkAovRecord 0 10] 500 20000 false)
      [mkAovRecord 0 10],
      ScoresBounded q.2 :=
  have h : ∀ r ∈ [mkAovRecord 0 10], RecOk r := by
    intro r hr
    rw [List.mem_singleton] at hr
    subst hr
    norm_num [RecOk, mkAovRecord]
  ⟨h, score_bounds_c5 [mkAovRecord 0 10] 500 20000 false h⟩
